import Mathlib

/-!
The bit-packed adjacency matrix of `simple_graphs.c`.

A shallow embedding of the C extension type `AdjacencyMatrix` and of its methods.

Machine integers.  A C `short` is kept as its 16-bit two's-complement bit pattern, a natural
number below `65536`; an `int` is kept as its 32-bit pattern.  `promote` is the integer promotion
of a `short` to `int` (sign extension), `toShort` is the conversion of an `int` back to `short`
(the low 16 bits), and `shortPos` is the signed comparison `x > 0` on a `short`.  A text is the
list of `char` values the C code reads: the bytes of the UTF-8 encoding of the Python string,
which for ASCII characters are the character codes.

Vertex indices are natural numbers; the C behaviour is defined for indices in `[0, 16)` (the
rows of the `malloc`ed array) and shift amounts below `31`.
-/

namespace SimpleGraphs

/-! ## Machine integers -/

/-- The capacity constant `#define MAX_VERTICES 16`. -/
def MAX_VERTICES : Nat := 16

/-- Conversion of an `int` bit pattern to `short`: the low 16 bits (the out-of-range case is
implementation-defined in C; the usual compilers wrap in two's complement). -/
def toShort (x : Nat) : Nat := x % 65536

/-- Integer promotion of a `short` bit pattern to a 32-bit `int` pattern (sign extension). -/
def promote (x : Nat) : Nat := if x < 32768 then x else x + 4294901760

/-- The signed comparison `x > 0` on a `short` bit pattern. -/
def shortPos (x : Nat) : Bool := decide (0 < x ∧ x < 32768)

/-- The 32-bit pattern of a mathematical integer held in an `int`. -/
def toInt32 (x : Int) : Nat := (x % 4294967296).toNat

/-- Bitwise complement `~x` of a 32-bit `int` pattern. -/
def not32 (x : Nat) : Nat := 4294967295 ^^^ (x % 4294967296)

/-- The compound assignment `s |= y` on a `short` lvalue `s`, with `y` an `int` pattern. -/
def orAssign (s y : Nat) : Nat := toShort (promote s ||| y)

/-- The compound assignment `s &= y` on a `short` lvalue `s`, with `y` an `int` pattern. -/
def andAssign (s y : Nat) : Nat := toShort (promote s &&& y)

/-- The expression `s & (1 << i)` with `s` a `short`, as an `int` pattern. -/
def andBit (s i : Nat) : Nat := promote s &&& (1 <<< i)

/-! ## Helpers of the C file -/

/-- The loop `while (x > 0) { if (x & 1) count += 1; x >>= 1; }` on a `short` `x`,
run for at most `fuel` iterations. -/
def popcount_while : Nat → Nat → Nat → Nat
  | 0, _, count => count
  | fuel + 1, x, count =>
    if shortPos x then
      popcount_while fuel (toShort (promote x >>> 1)) (if promote x &&& 1 ≠ 0 then count + 1 else count)
    else count

/-- `number_of_vertices_helper(short vertices)`. -/
def number_of_vertices_helper (vertices : Nat) : Nat := popcount_while 16 vertices 0

/-- `is_edge_helper(short *edges, int u, int v)`: `edges[u] & (1 << v)`. -/
def is_edge_helper (edges : List Nat) (u v : Nat) : Nat := andBit (edges.getD u 0) v

/-- The object: `short vertices; short *edges` (an array of `MAX_VERTICES` rows). -/
structure AdjacencyMatrix where
  vertices : Nat
  edges : List Nat
deriving DecidableEq, Repr

/-- `PySet_Add`: insertion into a set, kept as a duplicate-free list in insertion order. -/
def PySet_Add {α : Type} [DecidableEq α] (s : List α) (x : α) : List α :=
  if x ∈ s then s else s ++ [x]

/-! ## Construction -/

/-- Character `txt[i]` of the NUL-terminated text, as an `int`: index `length` reads the
terminator 0. Reads past the terminator are outside the C array; they are given the value 0. -/
def txtAt (txt : List Int) (i : Nat) : Int := txt.getD i 0

/-- Local variables of the decoding loop of `AdjacencyMatrix_init`. -/
structure DecodeState where
  k : Nat
  i : Nat
  c : Nat
  edges : List Nat
deriving DecidableEq, Repr

/-- Body of the inner loop of `AdjacencyMatrix_init` for the pair `(u, v)`. -/
def init_body (txt : List Int) (v u : Nat) (st : DecodeState) : DecodeState :=
  let st1 : DecodeState :=
    if st.k = 0 then { st with c := toInt32 (txtAt txt st.i - 63), i := st.i + 1, k := 6 } else st
  let k := st1.k - 1
  if st1.c &&& (1 <<< k) ≠ 0 then
    let e1 := st1.edges.set u (orAssign (st1.edges.getD u 0) (1 <<< v))
    let e2 := e1.set v (orAssign (e1.getD v 0) (1 <<< u))
    { st1 with k := k, edges := e2 }
  else { st1 with k := k }

/-- The inner loop `for (int u = 0; u < v; u++)`. -/
def init_inner (txt : List Int) (v : Nat) (st : DecodeState) : DecodeState :=
  (List.range v).foldl (fun st u => init_body txt v u st) st

/-- The outer loop `for (int v = 1; v < vc; v++)`. -/
def init_outer (txt : List Int) (vc : Int) (st : DecodeState) : DecodeState :=
  (List.range' 1 (vc - 1).toNat).foldl (fun st v => init_inner txt v st) st

/-- `AdjacencyMatrix_new`: `self->vertices = 0x0000; self->edges = NULL;` (no rows yet). -/
def AdjacencyMatrix_new : AdjacencyMatrix := { vertices := 0, edges := [] }

/-- `PyArg_ParseTupleAndKeywords(args, kwargs, "|s", keywords, &txt)` on a string argument:
with no argument `txt` keeps its initial value `"?"`; a string with an embedded NUL makes the
parse fail (`none`); any other string is handed over as its `char` array. -/
def PyArg_ParseTupleAndKeywords (text : Option (List Int)) : Option (List Int) :=
  match text with
  | none => some [63]
  | some t => if 0 ∈ t then none else some t

/-- `AdjacencyMatrix_init`: the result is the return code and the object. When the argument
parse fails the code is `-1` and the object is left as `AdjacencyMatrix_new` made it; otherwise
the rows are allocated and zeroed, the text is decoded, and the code is `0`. -/
def AdjacencyMatrix_init (text : Option (List Int)) : Int × AdjacencyMatrix :=
  match PyArg_ParseTupleAndKeywords text with
  | none => (-1, AdjacencyMatrix_new)
  | some txt =>
    let vc : Int := txtAt txt 0 - 63
    let st := init_outer txt vc { k := 0, i := 1, c := 0, edges := List.replicate MAX_VERTICES 0 }
    (0, { vertices := toShort ((1 <<< vc.toNat) - 1), edges := st.edges })

/-! ## Queries -/

/-- `number_of_vertices`. -/
def number_of_vertices (self : AdjacencyMatrix) : Nat :=
  number_of_vertices_helper self.vertices

/-- `vertices`: the set of `i < MAX_VERTICES` with `self->vertices & (1 << i)`. -/
def vertices (self : AdjacencyMatrix) : List Nat :=
  (List.range MAX_VERTICES).foldl
    (fun verts i => if andBit self.vertices i ≠ 0 then PySet_Add verts i else verts) []

/-- `vertex_degree`: the counting loop on `self->edges[vertex]`. -/
def vertex_degree (self : AdjacencyMatrix) (vertex : Nat) : Nat :=
  popcount_while 16 (self.edges.getD vertex 0) 0

/-- `vertex_neighbors`: the set of `i < MAX_VERTICES` with `vertexEdges & (1 << i)`. -/
def vertex_neighbors (self : AdjacencyMatrix) (vertex : Nat) : List Nat :=
  let vertexEdges := self.edges.getD vertex 0
  (List.range MAX_VERTICES).foldl
    (fun verts i => if andBit vertexEdges i ≠ 0 then PySet_Add verts i else verts) []

/-- `is_edge`: `PyBool_FromLong(is_edge_helper(self->edges, u, v))`. -/
def is_edge (self : AdjacencyMatrix) (u v : Nat) : Bool :=
  is_edge_helper self.edges u v != 0

/-- `number_of_edges`: the count of set bits over all rows, halved. -/
def number_of_edges (self : AdjacencyMatrix) : Nat :=
  (List.range MAX_VERTICES).foldl
    (fun numberOfEdges i =>
      let vertexEdges := self.edges.getD i 0
      (List.range MAX_VERTICES).foldl
        (fun numberOfEdges j => if andBit vertexEdges j ≠ 0 then numberOfEdges + 1 else numberOfEdges)
        numberOfEdges) 0 / 2

/-- `edges`: the set of pairs `(min i j, max i j)` over the set bits of all rows. -/
def edges (self : AdjacencyMatrix) : List (Nat × Nat) :=
  (List.range MAX_VERTICES).foldl
    (fun acc i =>
      let vertexEdges := self.edges.getD i 0
      (List.range MAX_VERTICES).foldl
        (fun acc j =>
          if andBit vertexEdges j ≠ 0 then
            PySet_Add acc (if i < j then i else j, if i < j then j else i)
          else acc)
        acc) []

/-- Body of the inner loop of `is_complete_bipartite` for the pair `(u, v)`: `false` when the
body executes `return PyBool_FromLong(0)`, `true` when the loop goes on. -/
def is_complete_bipartite_body (edges : List Nat) (u v : Nat) : Bool :=
  if u ≠ v then
    if is_edge_helper edges u v ≠ 0 then
      !((is_edge_helper edges 0 u ≠ 0 && is_edge_helper edges 0 v ≠ 0)
        || (is_edge_helper edges 0 u = 0 && is_edge_helper edges 0 v = 0))
    else
      !((is_edge_helper edges 0 u ≠ 0 && is_edge_helper edges 0 v = 0)
        || (is_edge_helper edges 0 u = 0 && is_edge_helper edges 0 v ≠ 0))
  else true

/-- `is_complete_bipartite`: the first pair whose body returns gives `False`, otherwise the
loops over `u, v < verticesNumber` run to the end and the result is `True`. -/
def is_complete_bipartite (self : AdjacencyMatrix) : Bool :=
  let verticesNumber := number_of_vertices_helper self.vertices
  (List.range verticesNumber).all fun u =>
    (List.range verticesNumber).all fun v => is_complete_bipartite_body self.edges u v

/-! ## Mutations (each returns the Python boolean and the updated object) -/

/-- `add_vertex`: `self->vertices |= (1 << vertex)`, returns `False`. -/
def add_vertex (self : AdjacencyMatrix) (vertex : Nat) : Bool × AdjacencyMatrix :=
  (false, { self with vertices := orAssign self.vertices (1 <<< vertex) })

/-- `delete_vertex`: clears the presence bit, the row, and the column; returns `True`. -/
def delete_vertex (self : AdjacencyMatrix) (vertex : Nat) : Bool × AdjacencyMatrix :=
  let mask := toShort (not32 (1 <<< vertex))
  let vertices := andAssign self.vertices (promote mask)
  let edges0 := self.edges.set vertex 0
  let edges1 := (List.range MAX_VERTICES).foldl
    (fun es i => es.set i (andAssign (es.getD i 0) (promote mask))) edges0
  (true, { vertices := vertices, edges := edges1 })

/-- `add_edge`: sets both bits unless `v == u`; returns `True`. -/
def add_edge (self : AdjacencyMatrix) (u v : Nat) : Bool × AdjacencyMatrix :=
  if v ≠ u then
    let e1 := self.edges.set u (orAssign (self.edges.getD u 0) (1 <<< v))
    let e2 := e1.set v (orAssign (e1.getD v 0) (1 <<< u))
    (true, { self with edges := e2 })
  else (true, self)

/-- `delete_edge`: clears both bits; returns `True`. -/
def delete_edge (self : AdjacencyMatrix) (u v : Nat) : Bool × AdjacencyMatrix :=
  let e1 := self.edges.set u (andAssign (self.edges.getD u 0) (not32 (1 <<< v)))
  let e2 := e1.set v (andAssign (e1.getD v 0) (not32 (1 <<< u)))
  (true, { self with edges := e2 })

/-! ## Definitions used to state and prove the properties -/

/-- Index of the first stream bit of column `v`: the number of pairs `(u, w)` with `u < w < v`. -/
def tri (v : Nat) : Nat := v * (v - 1) / 2

/-- Bit `p` of the data stream as the loop reads it: bit `5 - p % 6` of `txt[1 + p / 6] - 63`. -/
def streamBit (txt : List Int) (p : Nat) : Bool :=
  (toInt32 (txtAt txt (1 + p / 6) - 63)).testBit (5 - p % 6)

/-- The two assignments `edges[u] |= (1 << v); edges[v] |= (1 << u);`. -/
def setBoth (e : List Nat) (u v : Nat) : List Nat :=
  (e.set u (orAssign (e.getD u 0) (1 <<< v))).set v
    (orAssign ((e.set u (orAssign (e.getD u 0) (1 <<< v))).getD v 0) (1 <<< u))

/-- The rows after the first `p` pairs of the stream have been read. -/
structure EdgeInv (txt : List Int) (p : Nat) (e : List Nat) : Prop where
  hlen : e.length = 16
  hlt : ∀ a, e.getD a 0 < 65536
  hbit : ∀ a b, a < b → b < 16 →
    ((e.getD a 0).testBit b = true ↔ tri b + a < p ∧ streamBit txt (tri b + a) = true)
  hsym : ∀ a b, a < 16 → b < 16 → (e.getD a 0).testBit b = (e.getD b 0).testBit a
  hirr : ∀ a, a < 16 → (e.getD a 0).testBit a = false

/-- Loop invariant of the decoder after `p` pairs have been read. -/
structure DecodeInv (txt : List Int) (p : Nat) (st : DecodeState) : Prop where
  hk : st.k = (6 - p % 6) % 6
  hi : st.i = 1 + (p + 5) / 6
  hc : p % 6 ≠ 0 → st.c = toInt32 (txtAt txt (1 + p / 6) - 63)
  hedges : EdgeInv txt p st.edges

/-- A well-formed encoding of an `n`-vertex graph: the header character `chr(63 + n)` followed by
at least `ceil(n(n-1)/2 / 6)` data characters, each in `'?'..'~'`. -/
def WellFormed (n : Nat) (txt : List Int) : Prop :=
  txt.head? = some (63 + (n : Int)) ∧ (n * (n - 1) / 2 + 5) / 6 ≤ txt.length - 1 ∧
    ∀ ch ∈ txt.tail, 63 ≤ ch ∧ ch ≤ 126

instance (n : Nat) (txt : List Int) : Decidable (WellFormed n txt) := by
  unfold WellFormed
  infer_instance

/-- Bit number `p` of the data stream in the words of the format: bit `5 - p mod 6` of
`ord(text[1 + p div 6]) - 63`. -/
def graph6_bit (txt : List Int) (p : Nat) : Bool :=
  (txtAt txt (1 + p / 6) - 63).toNat.testBit (5 - p % 6)

/-- A call of one of the four mutating methods. -/
inductive Call where
  | addVertex (v : Nat)
  | deleteVertex (v : Nat)
  | addEdge (u v : Nat)
  | deleteEdge (u v : Nat)
deriving DecidableEq, Repr

/-- All indices of the call lie in `[0, MAX_VERTICES)`. -/
def Call.inRange : Call → Bool
  | .addVertex v => decide (v < MAX_VERTICES)
  | .deleteVertex v => decide (v < MAX_VERTICES)
  | .addEdge u v => decide (u < MAX_VERTICES) && decide (v < MAX_VERTICES)
  | .deleteEdge u v => decide (u < MAX_VERTICES) && decide (v < MAX_VERTICES)

/-- The object after the call. -/
def Call.apply (s : AdjacencyMatrix) : Call → AdjacencyMatrix
  | .addVertex v => (add_vertex s v).2
  | .deleteVertex v => (delete_vertex s v).2
  | .addEdge u v => (add_edge s u v).2
  | .deleteEdge u v => (delete_edge s u v).2

/-- The object after a sequence of calls, first call first. -/
def run (s : AdjacencyMatrix) (calls : List Call) : AdjacencyMatrix :=
  calls.foldl Call.apply s

/-- Every `add_edge(u, v)` of the sequence is called while `u` and `v` are both in `vertices()`. -/
def edgesAddedBetweenPresent : AdjacencyMatrix → List Call → Bool
  | _, [] => true
  | s, c :: cs =>
    (match c with
      | .addEdge u v => decide (u ∈ vertices s) && decide (v ∈ vertices s)
      | _ => true) && edgesAddedBetweenPresent (c.apply s) cs

/-- The stored values are 16-bit and there are `MAX_VERTICES` rows. -/
structure WF (s : AdjacencyMatrix) : Prop where
  hv : s.vertices < 65536
  hlen : s.edges.length = 16
  hrow : ∀ a, s.edges.getD a 0 < 65536

/-- The two assignments `edges[u] &= ~(1 << v); edges[v] &= ~(1 << u);`. -/
def clearBoth (e : List Nat) (u v : Nat) : List Nat :=
  (e.set u (andAssign (e.getD u 0) (not32 (1 <<< v)))).set v
    (andAssign ((e.set u (andAssign (e.getD u 0) (not32 (1 <<< v)))).getD v 0) (not32 (1 <<< u)))

/-- The loop `for (i = 0; i < m; i++) edges[i] &= mask;`. -/
def clearColumn (mask : Nat) (e : List Nat) (m : Nat) : List Nat :=
  (List.range m).foldl (fun es i => es.set i (andAssign (es.getD i 0) (promote mask))) e

/-- Symmetry of the stored rows on `[0, 16)`. -/
def RowsSymmetric (s : AdjacencyMatrix) : Prop :=
  ∀ a b, a < 16 → b < 16 → (s.edges.getD a 0).testBit b = (s.edges.getD b 0).testBit a

/-- Every stored edge joins two present vertices. -/
def RowsClosed (s : AdjacencyMatrix) : Prop :=
  ∀ a b, a < 16 → b < 16 → (s.edges.getD a 0).testBit b = true →
    s.vertices.testBit a = true ∧ s.vertices.testBit b = true

/-- The calls that build `K(2,3)` on `{0,1}` versus `{2,3,4}`: five `add_vertex` and the six
cross `add_edge`. -/
def K23 : List Call :=
  [Call.addVertex 0, Call.addVertex 1, Call.addVertex 2, Call.addVertex 3, Call.addVertex 4,
   Call.addEdge 0 2, Call.addEdge 0 3, Call.addEdge 0 4,
   Call.addEdge 1 2, Call.addEdge 1 3, Call.addEdge 1 4]

/-- Population count of a 16-bit value: the number of `i < 16` whose bit is set. -/
def bitCount (x : Nat) : Nat := (List.range 16).countP (fun i => x.testBit i)

/-- The encoding of the empty graph on 16 vertices: `'O'` and twenty `'?'`. -/
def empty16 : List Int := 79 :: List.replicate 20 63

/-- The encoding of the 16-vertex graph whose only edge is `{0, 15}`: stream bit
`15 * 14 / 2 + 0 = 105` is bit 2 of data character 17, which is `'C'`. -/
def edge_0_15 : List Int := 79 :: (List.replicate 17 63 ++ [67, 63, 63])

/-- The encoding of the 16-vertex graph whose only edge is `{0, 1}`: stream bit 0 is bit 5 of
data character 0, which is `'_'`. -/
def edge_0_1 : List Int := 79 :: 95 :: List.replicate 19 63

/-- The total number of set bits over all adjacency rows. -/
def totalBits (s : AdjacencyMatrix) : Nat :=
  ((List.range 16).map (fun i => bitCount (s.edges.getD i 0))).sum

/-- The pairs `(u, v)` with `u < v < 16` whose bit `u` is set in row `v`, column by column. -/
def lowerPairs (s : AdjacencyMatrix) : List (Nat × Nat) :=
  (List.range 16).flatMap fun v =>
    ((List.range v).filter fun u => (s.edges.getD v 0).testBit u).map fun u => (u, v)

/-- The text `"B"`: three vertices declared, no data character. -/
def text_B : List Int := [66]

/-- The text `"B "`: three vertices declared, then a space (code 32, below `'?'`). -/
def text_B_space : List Int := [66, 32]

/-- The text `"B"`, a NUL character, `"w"`. -/
def text_B_nul_w : List Int := [66, 0, 119]

/-- Every character of the text is an ASCII character other than NUL. -/
def AsciiText (txt : List Int) : Prop := ∀ ch ∈ txt, 1 ≤ ch ∧ ch ≤ 127

instance (txt : List Int) : Decidable (AsciiText txt) := by
  unfold AsciiText
  infer_instance

/-- The text `'P'` and twenty-three `'?'`: seventeen vertices declared, no edge bit set. -/
def text_17 : List Int := 80 :: List.replicate 23 63

set_option maxRecDepth 100000

/-! ## Bit-level facts about the machine-integer operations -/

theorem promote_testBit {x i : Nat} (hx : x < 65536) (hi : i < 16) :
    (promote x).testBit i = x.testBit i := by
  unfold promote
  split
  · rfl
  · have h := Nat.testBit_mul_pow_two_add 65535 (show x < 2 ^ 16 by omega) i
    rw [if_pos hi] at h
    rw [← h]
    congr 1
    norm_num
    omega

theorem and_shift_ne_zero (y i : Nat) : (y &&& (1 <<< i) ≠ 0) ↔ y.testBit i = true := by
  rw [Nat.one_shiftLeft, Nat.and_two_pow]
  cases h : y.testBit i
  · simp
  · simp

theorem andBit_ne_zero {x i : Nat} (hx : x < 65536) (hi : i < 16) :
    (andBit x i ≠ 0) ↔ x.testBit i = true := by
  unfold andBit
  rw [and_shift_ne_zero, promote_testBit hx hi]

theorem toShort_lt (x : Nat) : toShort x < 65536 := Nat.mod_lt _ (by decide)

theorem toShort_testBit {x i : Nat} (hi : i < 16) : (toShort x).testBit i = x.testBit i := by
  have h := Nat.testBit_mod_two_pow x 16 i
  simp only [hi, decide_True, Bool.true_and] at h
  exact h

theorem orAssign_lt (s y : Nat) : orAssign s y < 65536 := toShort_lt _

theorem andAssign_lt (s y : Nat) : andAssign s y < 65536 := toShort_lt _

theorem orAssign_testBit {s i : Nat} (y : Nat) (hs : s < 65536) (hi : i < 16) :
    (orAssign s y).testBit i = (s.testBit i || y.testBit i) := by
  unfold orAssign
  rw [toShort_testBit hi, Nat.testBit_or, promote_testBit hs hi]

theorem andAssign_testBit {s i : Nat} (y : Nat) (hs : s < 65536) (hi : i < 16) :
    (andAssign s y).testBit i = (s.testBit i && y.testBit i) := by
  unfold andAssign
  rw [toShort_testBit hi, Nat.testBit_and, promote_testBit hs hi]

theorem shift_testBit (v i : Nat) : (1 <<< v).testBit i = decide (v = i) := by
  rw [Nat.one_shiftLeft, Nat.testBit_two_pow]

theorem not32_testBit {i : Nat} (x : Nat) (hi : i < 32) :
    (not32 x).testBit i = !x.testBit i := by
  unfold not32
  have h1 := Nat.testBit_two_pow_sub_one 32 i
  have h2 := Nat.testBit_mod_two_pow x 32 i
  norm_num at h1 h2
  rw [Nat.testBit_xor, h1, h2]
  simp [hi]

theorem mask_testBit {i : Nat} (vertex : Nat) (hi : i < 16) :
    (promote (toShort (not32 (1 <<< vertex)))).testBit i = !decide (vertex = i) := by
  rw [promote_testBit (toShort_lt _) hi, toShort_testBit hi, not32_testBit _ (by omega),
    shift_testBit]

/-- Reading a row after a write: `(l.set i a)[j]`. -/
theorem getD_set (l : List Nat) (i j a : Nat) :
    (l.set i a).getD j 0 = if i = j ∧ i < l.length then a else l.getD j 0 := by
  simp only [List.getD_eq_getElem?_getD, List.getElem?_set]
  by_cases hij : i = j
  · subst hij
    by_cases hl : i < l.length
    · simp [hl]
    · simp [hl, List.getElem?_eq_none (Nat.le_of_not_lt hl)]
  · simp [hij]

/-! ## The decoding loop -/

theorem tri_succ (v : Nat) : tri (v + 1) = tri v + v := by
  unfold tri
  cases v with
  | zero => rfl
  | succ w =>
    have h : (w + 1 + 1) * (w + 1 + 1 - 1) = (w + 1) * (w + 1 - 1) + 2 * (w + 1) := by
      simp only [Nat.add_sub_cancel]
      ring
    rw [h, Nat.add_mul_div_left _ _ (by decide : 0 < 2)]

theorem tri_mono {a b : Nat} (h : a ≤ b) : tri a ≤ tri b := by
  induction h with
  | refl => exact Nat.le_refl _
  | step _ ih =>
    rw [tri_succ]
    omega

theorem setBoth_length (e : List Nat) (u v : Nat) : (setBoth e u v).length = e.length := by
  simp [setBoth]

theorem setBoth_lt {e : List Nat} (u v : Nat) (hlt : ∀ a, e.getD a 0 < 65536) (a : Nat) :
    (setBoth e u v).getD a 0 < 65536 := by
  unfold setBoth
  rw [getD_set]
  split
  · exact orAssign_lt _ _
  · rw [getD_set]
    split
    · exact orAssign_lt _ _
    · exact hlt a

theorem setBoth_testBit {e : List Nat} {u v a b : Nat} (hlen : e.length = 16)
    (hlt : ∀ a, e.getD a 0 < 65536) (hu : u < 16) (hv : v < 16) (huv : u ≠ v)
    (ha : a < 16) (hb : b < 16) :
    ((setBoth e u v).getD a 0).testBit b
      = ((e.getD a 0).testBit b || (decide (a = u ∧ b = v) || decide (a = v ∧ b = u))) := by
  unfold setBoth
  have hvu : v ≠ u := fun h => huv h.symm
  by_cases hav : a = v
  · subst hav
    have hua : ¬ (u = a ∧ u < e.length) := fun h => huv h.1
    rw [getD_set, if_pos ⟨rfl, by simp [hlen, ha]⟩, getD_set, if_neg hua,
      orAssign_testBit _ (hlt a) hb, shift_testBit]
    simp [hvu, eq_comm]
  · have hva : ¬ (v = a ∧ v < (e.set u (orAssign (e.getD u 0) (1 <<< v))).length) :=
      fun h => hav h.1.symm
    rw [getD_set, if_neg hva]
    by_cases hau : a = u
    · subst hau
      rw [getD_set, if_pos ⟨rfl, by simp [hlen, ha]⟩, orAssign_testBit _ (hlt a) hb, shift_testBit]
      simp [hav, eq_comm]
    · have hua : ¬ (u = a ∧ u < e.length) := fun h => hau h.1.symm
      rw [getD_set, if_neg hua]
      simp [hav, hau]

theorem init_body_eq (txt : List Int) (v u : Nat) (st : DecodeState) :
    init_body txt v u st =
      (if st.k = 0 then
        (if toInt32 (txtAt txt st.i - 63) &&& (1 <<< 5) ≠ 0 then
          { k := 5, i := st.i + 1, c := toInt32 (txtAt txt st.i - 63),
            edges := setBoth st.edges u v }
        else { k := 5, i := st.i + 1, c := toInt32 (txtAt txt st.i - 63), edges := st.edges })
      else
        (if st.c &&& (1 <<< (st.k - 1)) ≠ 0 then
          { k := st.k - 1, i := st.i, c := st.c, edges := setBoth st.edges u v }
        else { k := st.k - 1, i := st.i, c := st.c, edges := st.edges })) := by
  unfold init_body setBoth
  by_cases hk : st.k = 0
  · simp only [hk, if_true]
  · simp only [hk, if_false]

theorem tri_pair_inj {a b u v : Nat} (hab : a < b) (huv : u < v)
    (h : tri b + a = tri v + u) : a = u ∧ b = v := by
  rcases Nat.lt_trichotomy b v with hlt | heq | hgt
  · have h1 := tri_mono (Nat.succ_le_of_lt hlt)
    rw [tri_succ] at h1
    omega
  · subst heq
    exact ⟨by omega, rfl⟩
  · have h1 := tri_mono (Nat.succ_le_of_lt hgt)
    rw [tri_succ] at h1
    omega

theorem edge_step (txt : List Int) {u v : Nat} {e : List Nat} (huv : u < v) (hv : v < 16)
    (h : EdgeInv txt (tri v + u) e) :
    EdgeInv txt (tri v + u + 1) (if streamBit txt (tri v + u) = true then setBoth e u v else e) := by
  obtain ⟨hlen, hlt, hbit, hsym, hirr⟩ := h
  have hu : u < 16 := by omega
  have hne : u ≠ v := by omega
  by_cases hs : streamBit txt (tri v + u) = true
  · rw [if_pos hs]
    refine ⟨by rw [setBoth_length, hlen], setBoth_lt u v hlt, ?_, ?_, ?_⟩
    · intro a b hab hb
      rw [setBoth_testBit hlen hlt hu hv hne (by omega) hb]
      by_cases hp : a = u ∧ b = v
      · obtain ⟨rfl, rfl⟩ := hp
        simp [hs]
      · have hq : ¬ (a = v ∧ b = u) := by omega
        have hidx : tri b + a ≠ tri v + u := fun hx => hp (tri_pair_inj hab huv hx)
        simp only [hp, hq, decide_False, Bool.or_false, hbit a b hab hb]
        constructor
        · rintro ⟨h1, h2⟩
          exact ⟨by omega, h2⟩
        · rintro ⟨h1, h2⟩
          exact ⟨by omega, h2⟩
    · intro a b ha hb
      rw [setBoth_testBit hlen hlt hu hv hne ha hb, setBoth_testBit hlen hlt hu hv hne hb ha,
        hsym a b ha hb]
      congr 1
      rw [Bool.or_comm]
      simp only [and_comm]
    · intro a ha
      rw [setBoth_testBit hlen hlt hu hv hne ha ha, hirr a ha]
      have h1 : ¬ (a = u ∧ a = v) := by omega
      have h2 : ¬ (a = v ∧ a = u) := by omega
      simp [h1, h2]
  · rw [if_neg hs]
    refine ⟨hlen, hlt, ?_, hsym, hirr⟩
    intro a b hab hb
    rw [hbit a b hab hb]
    constructor
    · rintro ⟨h1, h2⟩
      exact ⟨by omega, h2⟩
    · rintro ⟨h1, h2⟩
      refine ⟨?_, h2⟩
      by_contra hcon
      have heq : tri b + a = tri v + u := by omega
      rw [heq] at h2
      exact hs h2

theorem init_body_inv (txt : List Int) {u v : Nat} {st : DecodeState} (huv : u < v)
    (hv : v < 16) (h : DecodeInv txt (tri v + u) st) :
    DecodeInv txt (tri v + u + 1) (init_body txt v u st) := by
  obtain ⟨hk, hi, hc, he⟩ := h
  have hstep := edge_step txt huv hv he
  generalize tri v + u = p at *
  rw [init_body_eq]
  by_cases hk0 : st.k = 0
  · have hp0 : p % 6 = 0 := by omega
    have hidx : st.i = 1 + p / 6 := by omega
    have hbit : (toInt32 (txtAt txt st.i - 63) &&& (1 <<< 5) ≠ 0) ↔ streamBit txt p = true := by
      rw [and_shift_ne_zero, streamBit, hidx, hp0]
    rw [if_pos hk0]
    by_cases hb : streamBit txt p = true
    · rw [if_pos (hbit.mpr hb)]
      rw [if_pos hb] at hstep
      exact ⟨by simp only; omega, by simp only; omega, fun _ => by simp only; rw [hidx]; congr 3; omega, hstep⟩
    · rw [if_neg (fun hx => hb (hbit.mp hx))]
      rw [if_neg hb] at hstep
      exact ⟨by simp only; omega, by simp only; omega, fun _ => by simp only; rw [hidx]; congr 3; omega, hstep⟩
  · have hp0 : p % 6 ≠ 0 := by omega
    have hcv := hc hp0
    have hbit : (st.c &&& (1 <<< (st.k - 1)) ≠ 0) ↔ streamBit txt p = true := by
      rw [and_shift_ne_zero, streamBit, hcv]
      have : st.k - 1 = 5 - p % 6 := by omega
      rw [this]
    rw [if_neg hk0]
    by_cases hb : streamBit txt p = true
    · rw [if_pos (hbit.mpr hb)]
      rw [if_pos hb] at hstep
      exact ⟨by simp only; omega, by simp only; omega, fun _ => by simp only; rw [hcv]; congr 3; omega, hstep⟩
    · rw [if_neg (fun hx => hb (hbit.mp hx))]
      rw [if_neg hb] at hstep
      exact ⟨by simp only; omega, by simp only; omega, fun _ => by simp only; rw [hcv]; congr 3; omega, hstep⟩

theorem init_inner_inv (txt : List Int) {v : Nat} {st : DecodeState} (hv : v < 16)
    (h : DecodeInv txt (tri v) st) : DecodeInv txt (tri (v + 1)) (init_inner txt v st) := by
  have key : ∀ m, m ≤ v →
      DecodeInv txt (tri v + m) ((List.range m).foldl (fun st u => init_body txt v u st) st) := by
    intro m
    induction m with
    | zero => intro _; exact h
    | succ m ih =>
      intro hm
      rw [List.range_succ, List.foldl_append]
      exact init_body_inv txt (Nat.lt_of_succ_le hm) hv (ih (Nat.le_of_succ_le hm))
  rw [tri_succ]
  exact key v (Nat.le_refl v)

theorem init_outer_inv (txt : List Int) {st : DecodeState} (h : DecodeInv txt 0 st) :
    ∀ m, m < 16 → DecodeInv txt (tri (m + 1))
      ((List.range' 1 m).foldl (fun st v => init_inner txt v st) st) := by
  intro m
  induction m with
  | zero => intro _; exact h
  | succ m ih =>
    intro hm
    rw [List.range'_1_concat, List.foldl_append, List.foldl_cons, List.foldl_nil]
    have h1 := init_inner_inv txt (show 1 + m < 16 by omega) (by
      have := ih (by omega)
      rwa [Nat.add_comm m 1] at this)
    rw [Nat.add_comm 1 m] at h1
    rw [Nat.add_comm 1 m]
    exact h1

theorem init_start_inv (txt : List Int) :
    DecodeInv txt 0 { k := 0, i := 1, c := 0, edges := List.replicate MAX_VERTICES 0 } := by
  have hrow : ∀ a, (List.replicate MAX_VERTICES 0).getD a 0 = 0 := by
    intro a
    simp only [List.getD_eq_getElem?_getD, List.getElem?_replicate]
    split <;> rfl
  refine ⟨rfl, rfl, fun h => absurd rfl h, ?_⟩
  refine ⟨by simp [MAX_VERTICES], fun a => by rw [hrow]; decide, ?_, ?_, ?_⟩
  · intro a b _ _
    rw [hrow]
    simp
  · intro a b _ _
    rw [hrow, hrow]
    simp
  · intro a _
    rw [hrow]
    simp

theorem wellFormed_header {n : Nat} {txt : List Int} (h : WellFormed n txt) :
    txtAt txt 0 - 63 = (n : Int) := by
  obtain ⟨h1, _, _⟩ := h
  cases txt with
  | nil => simp at h1
  | cons hd tl =>
    simp only [List.head?_cons, Option.some.injEq] at h1
    simp only [txtAt, List.getD_cons_zero, h1]
    omega

theorem wellFormed_streamBit {n : Nat} {txt : List Int} (h : WellFormed n txt) {p : Nat}
    (hp : p < tri n) : streamBit txt p = graph6_bit txt p := by
  obtain ⟨h1, h2, h3⟩ := h
  cases txt with
  | nil => simp at h1
  | cons hd tl =>
    have hlen : p / 6 < tl.length := by
      simp only [List.length_cons, Nat.add_sub_cancel] at h2
      unfold tri at hp
      omega
    have hmem : tl[p / 6] ∈ tl := List.getElem_mem hlen
    have hval : txtAt (hd :: tl) (1 + p / 6) = tl[p / 6] := by
      simp [txtAt, Nat.add_comm 1, hlen]
    have hge := (h3 _ hmem).1
    have hle := (h3 _ hmem).2
    unfold streamBit graph6_bit toInt32
    rw [hval, Int.emod_eq_of_lt (by omega) (by omega)]

/-- The decoder's final loop state on a well-formed text. -/
theorem init_final_inv {n : Nat} (txt : List Int) (hn : n ≤ 16) :
    DecodeInv txt (tri n)
      (init_outer txt (n : Int) { k := 0, i := 1, c := 0, edges := List.replicate MAX_VERTICES 0 }) := by
  unfold init_outer
  cases n with
  | zero => exact init_start_inv txt
  | succ m =>
    have hm : ((m + 1 : Nat) : Int) - 1 = (m : Int) := by omega
    rw [hm, Int.toNat_ofNat]
    exact init_outer_inv txt (init_start_inv txt) m (by omega)

/-- A text without NUL passes the argument parse: the constructor returns 0 and the decoded
object. -/
theorem init_eq_of_no_nul {txt : List Int} (h : 0 ∉ txt) :
    AdjacencyMatrix_init (some txt)
      = (0, { vertices := toShort ((1 <<< (txtAt txt 0 - 63).toNat) - 1),
              edges := (init_outer txt (txtAt txt 0 - 63)
                { k := 0, i := 1, c := 0, edges := List.replicate MAX_VERTICES 0 }).edges }) := by
  simp only [AdjacencyMatrix_init, PyArg_ParseTupleAndKeywords, if_neg h]

/-- A text with an embedded NUL fails the argument parse: the constructor returns -1. -/
theorem init_of_nul {txt : List Int} (h : 0 ∈ txt) :
    AdjacencyMatrix_init (some txt) = (-1, AdjacencyMatrix_new) := by
  simp only [AdjacencyMatrix_init, PyArg_ParseTupleAndKeywords, if_pos h]

theorem wellFormed_no_nul {n : Nat} {txt : List Int} (h : WellFormed n txt) : 0 ∉ txt := by
  obtain ⟨h1, _, h3⟩ := h
  cases txt with
  | nil => simp at h1
  | cons hd tl =>
    simp only [List.head?_cons, Option.some.injEq] at h1
    intro hmem
    rcases List.mem_cons.mp hmem with h0 | h0
    · omega
    · have := (h3 0 h0).1
      omega

theorem init_edges {n : Nat} {txt : List Int} (hwf : WellFormed n txt) (hn : n ≤ 16) :
    EdgeInv txt (tri n) (AdjacencyMatrix_init (some txt)).2.edges := by
  have h := (init_final_inv txt hn).hedges
  have hh := wellFormed_header hwf
  rw [init_eq_of_no_nul (wellFormed_no_nul hwf)]
  simp only [hh]
  exact h

theorem init_vertices {n : Nat} {txt : List Int} (hwf : WellFormed n txt) :
    (AdjacencyMatrix_init (some txt)).2.vertices = toShort (2 ^ n - 1) := by
  have hh := wellFormed_header hwf
  rw [init_eq_of_no_nul (wellFormed_no_nul hwf)]
  simp only [hh, Int.toNat_ofNat, Nat.one_shiftLeft]

/-! ## Queries in terms of bits -/

theorem is_edge_eq_testBit (s : AdjacencyMatrix) {u v : Nat}
    (hrow : s.edges.getD u 0 < 65536) (hv : v < 16) :
    is_edge s u v = (s.edges.getD u 0).testBit v := by
  unfold is_edge is_edge_helper
  generalize s.edges.getD u 0 = r at hrow ⊢
  by_cases h : r.testBit v = true
  · have h1 := (andBit_ne_zero hrow hv).mpr h
    rw [h]
    exact bne_iff_ne.mpr h1
  · have h1 : andBit r v = 0 := by
      by_contra hc
      exact h ((andBit_ne_zero hrow hv).mp hc)
    rw [h1, Bool.eq_false_iff.mpr h]
    rfl

theorem mem_PySet_Add {α : Type} [DecidableEq α] (s : List α) (x y : α) :
    y ∈ PySet_Add s x ↔ y ∈ s ∨ y = x := by
  unfold PySet_Add
  split
  · constructor
    · exact Or.inl
    · rintro (h | rfl)
      · exact h
      · assumption
  · simp

theorem mem_foldl_PySet_Add (p : Nat → Prop) [DecidablePred p] (l acc : List Nat) (x : Nat) :
    x ∈ l.foldl (fun verts i => if p i then PySet_Add verts i else verts) acc
      ↔ x ∈ acc ∨ (x ∈ l ∧ p x) := by
  induction l generalizing acc with
  | nil => simp
  | cons a l ih =>
    rw [List.foldl_cons, ih]
    by_cases hp : p a
    · rw [if_pos hp, mem_PySet_Add]
      constructor
      · rintro ((h | rfl) | ⟨h1, h2⟩)
        · exact Or.inl h
        · exact Or.inr ⟨List.mem_cons_self _ _, hp⟩
        · exact Or.inr ⟨List.mem_cons_of_mem _ h1, h2⟩
      · rintro (h | ⟨h1, h2⟩)
        · exact Or.inl (Or.inl h)
        · rcases List.mem_cons.mp h1 with rfl | h1
          · exact Or.inl (Or.inr rfl)
          · exact Or.inr ⟨h1, h2⟩
    · rw [if_neg hp]
      constructor
      · rintro (h | ⟨h1, h2⟩)
        · exact Or.inl h
        · exact Or.inr ⟨List.mem_cons_of_mem _ h1, h2⟩
      · rintro (h | ⟨h1, h2⟩)
        · exact Or.inl h
        · rcases List.mem_cons.mp h1 with rfl | h1
          · exact absurd h2 hp
          · exact Or.inr ⟨h1, h2⟩

theorem mem_vertices (s : AdjacencyMatrix) (hv : s.vertices < 65536) (i : Nat) :
    i ∈ vertices s ↔ i < 16 ∧ s.vertices.testBit i = true := by
  unfold vertices
  rw [mem_foldl_PySet_Add (fun i => andBit s.vertices i ≠ 0)]
  simp only [List.not_mem_nil, false_or, List.mem_range, MAX_VERTICES]
  constructor
  · rintro ⟨h1, h2⟩
    exact ⟨h1, (andBit_ne_zero hv h1).mp h2⟩
  · rintro ⟨h1, h2⟩
    exact ⟨h1, (andBit_ne_zero hv h1).mpr h2⟩

theorem lowBits_testBit {n i : Nat} (hi : i < 16) :
    (toShort (2 ^ n - 1)).testBit i = decide (i < n) := by
  rw [toShort_testBit hi, Nat.testBit_two_pow_sub_one]

/-! ## Claims about construction -/

/-- C1: decoding is bit-exact graph6. For `n ≤ 16` and a well-formed encoding, for all
`u < v < n` the constructed graph has `is_edge(u, v)` exactly when bit `v(v-1)/2 + u` of the data
stream is set; and `"Bw"` decodes to the 3-vertex graph with edges `(0,1), (0,2), (1,2)`. -/
theorem C1_decode_bit_exact (n : Nat) (txt : List Int) (hn : n ≤ 16) (hwf : WellFormed n txt) :
    (∀ u v, u < v → v < n →
      (is_edge (AdjacencyMatrix_init (some txt)).2 u v = true
        ↔ graph6_bit txt (v * (v - 1) / 2 + u) = true))
    ∧ number_of_vertices (AdjacencyMatrix_init (some [66, 119])).2 = 3
    ∧ edges (AdjacencyMatrix_init (some [66, 119])).2 = [(0, 1), (0, 2), (1, 2)] := by
  refine ⟨?_, by decide, by decide⟩
  intro u v huv hv
  have he := init_edges hwf hn
  have hlt : tri v + u < tri n := by
    have h1 := tri_mono (Nat.succ_le_of_lt hv)
    rw [tri_succ] at h1
    omega
  rw [is_edge_eq_testBit _ (he.hlt u) (by omega), he.hbit u v huv (by omega),
    wellFormed_streamBit hwf hlt]
  exact ⟨fun h => h.2, fun h => ⟨hlt, h⟩⟩

/-- Witness for C1 on the encoding `"Bw"`. -/
theorem C1_decode_bit_exact_witness :
    WellFormed 3 [66, 119] ∧
    (∀ u v, u < v → v < 3 →
      (is_edge (AdjacencyMatrix_init (some [66, 119])).2 u v = true
        ↔ graph6_bit [66, 119] (v * (v - 1) / 2 + u) = true)) :=
  ⟨by decide, (C1_decode_bit_exact 3 [66, 119] (by decide) (by decide)).1⟩

theorem init_mem_vertices {n : Nat} {txt : List Int} (hwf : WellFormed n txt) (hn : n ≤ 16)
    (i : Nat) : i ∈ vertices (AdjacencyMatrix_init (some txt)).2 ↔ i < n := by
  have hvs := init_vertices hwf
  rw [mem_vertices _ (by rw [hvs]; exact toShort_lt _), hvs]
  constructor
  · rintro ⟨h1, h2⟩
    rw [lowBits_testBit h1] at h2
    exact of_decide_eq_true h2
  · intro h
    have h1 : i < 16 := by omega
    exact ⟨h1, by rw [lowBits_testBit h1]; exact decide_eq_true h⟩

/-- In a decoded graph every stored bit `(a, b)` has `a < n` and `b < n`. -/
theorem init_edge_below {n : Nat} {txt : List Int} (hwf : WellFormed n txt) (hn : n ≤ 16)
    {a b : Nat} (ha : a < 16) (hb : b < 16)
    (hab : ((AdjacencyMatrix_init (some txt)).2.edges.getD a 0).testBit b = true) :
    a < n ∧ b < n := by
  have he := init_edges hwf hn
  have key : ∀ x y, x < y → y < 16 →
      ((AdjacencyMatrix_init (some txt)).2.edges.getD x 0).testBit y = true → y < n := by
    intro x y hxy hy h
    have h1 := ((he.hbit x y hxy hy).mp h).1
    by_contra hcon
    have h2 := tri_mono (Nat.le_of_not_lt hcon)
    omega
  rcases Nat.lt_trichotomy a b with hlt | rfl | hgt
  · have := key a b hlt hb hab
    omega
  · rw [he.hirr a ha] at hab
    cases hab
  · rw [he.hsym a b ha hb] at hab
    have := key b a hgt ha hab
    omega

theorem init_is_edge_symm {n : Nat} {txt : List Int} (hwf : WellFormed n txt) (hn : n ≤ 16)
    (u v : Nat) (hu : u < 16) (hv : v < 16) :
    is_edge (AdjacencyMatrix_init (some txt)).2 u v
      = is_edge (AdjacencyMatrix_init (some txt)).2 v u := by
  have he := init_edges hwf hn
  rw [is_edge_eq_testBit _ (he.hlt u) hv, is_edge_eq_testBit _ (he.hlt v) hu]
  exact he.hsym u v hu hv

theorem init_is_edge_irrefl {n : Nat} {txt : List Int} (hwf : WellFormed n txt) (hn : n ≤ 16)
    (u : Nat) (hu : u < 16) : is_edge (AdjacencyMatrix_init (some txt)).2 u u = false := by
  have he := init_edges hwf hn
  rw [is_edge_eq_testBit _ (he.hlt u) hu]
  exact he.hirr u hu

theorem init_is_edge_below {n : Nat} {txt : List Int} (hwf : WellFormed n txt) (hn : n ≤ 16)
    (u v : Nat) (hu : u < 16) (hv : v < 16)
    (h : is_edge (AdjacencyMatrix_init (some txt)).2 u v = true) : u < n ∧ v < n := by
  have he := init_edges hwf hn
  rw [is_edge_eq_testBit _ (he.hlt u) hv] at h
  exact init_edge_below hwf hn hu hv h

/-- C4: construction establishes the data-model invariants. For `n ≤ 16` and a well-formed
encoding, `vertices()` is exactly `{0, ..., n-1}`, `is_edge` is symmetric and irreflexive on
`[0, 16)`, and every edge joins two vertices below `n`. -/
theorem C4_construction_invariants (n : Nat) (txt : List Int) (hn : n ≤ 16)
    (hwf : WellFormed n txt) :
    (∀ i, i ∈ vertices (AdjacencyMatrix_init (some txt)).2 ↔ i < n)
    ∧ (∀ u v, u < 16 → v < 16 →
        is_edge (AdjacencyMatrix_init (some txt)).2 u v
          = is_edge (AdjacencyMatrix_init (some txt)).2 v u)
    ∧ (∀ u, u < 16 → is_edge (AdjacencyMatrix_init (some txt)).2 u u = false)
    ∧ (∀ u v, u < 16 → v < 16 →
        is_edge (AdjacencyMatrix_init (some txt)).2 u v = true → u < n ∧ v < n) :=
  ⟨init_mem_vertices hwf hn, init_is_edge_symm hwf hn, init_is_edge_irrefl hwf hn,
    init_is_edge_below hwf hn⟩

/-- Witness for C4 on the encoding `"Bw"`. -/
theorem C4_construction_invariants_witness :
    WellFormed 3 [66, 119] ∧ (∀ i, i ∈ vertices (AdjacencyMatrix_init (some [66, 119])).2 ↔ i < 3) :=
  ⟨by decide, (C4_construction_invariants 3 [66, 119] (by decide) (by decide)).1⟩

/-! ## Mutation sequences -/

theorem clearColumn_length (mask : Nat) (e : List Nat) (m : Nat) :
    (clearColumn mask e m).length = e.length := by
  induction m with
  | zero => rfl
  | succ m ih =>
    unfold clearColumn at ih ⊢
    rw [List.range_succ, List.foldl_append, List.foldl_cons, List.foldl_nil, List.length_set, ih]

theorem clearColumn_getD (mask : Nat) (e : List Nat) (m j : Nat) :
    (clearColumn mask e m).getD j 0
      = if j < m ∧ j < e.length then andAssign (e.getD j 0) (promote mask) else e.getD j 0 := by
  induction m with
  | zero => simp [clearColumn]
  | succ m ih =>
    have hl := clearColumn_length mask e m
    unfold clearColumn at ih hl ⊢
    rw [List.range_succ, List.foldl_append, List.foldl_cons, List.foldl_nil, getD_set, hl]
    by_cases hmj : m = j
    · subst hmj
      rw [ih]
      by_cases hlen : m < e.length
      · simp [hlen]
      · simp [hlen]
    · rw [if_neg (fun h => hmj h.1), ih]
      by_cases hj : j < m
      · have : j < m + 1 := by omega
        simp [hj, this]
      · have : ¬ j < m + 1 := by omega
        simp [hj, this]

theorem add_vertex_edges (s : AdjacencyMatrix) (v : Nat) : (add_vertex s v).2.edges = s.edges := rfl

theorem add_vertex_vertices (s : AdjacencyMatrix) (v : Nat) :
    (add_vertex s v).2.vertices = orAssign s.vertices (1 <<< v) := rfl

theorem add_edge_vertices (s : AdjacencyMatrix) (u v : Nat) :
    (add_edge s u v).2.vertices = s.vertices := by
  unfold add_edge
  split <;> rfl

theorem add_edge_edges (s : AdjacencyMatrix) (u v : Nat) :
    (add_edge s u v).2.edges = if v ≠ u then setBoth s.edges u v else s.edges := by
  unfold add_edge setBoth
  split <;> rfl

theorem delete_edge_vertices (s : AdjacencyMatrix) (u v : Nat) :
    (delete_edge s u v).2.vertices = s.vertices := rfl

theorem delete_edge_edges (s : AdjacencyMatrix) (u v : Nat) :
    (delete_edge s u v).2.edges = clearBoth s.edges u v := rfl

theorem delete_vertex_vertices (s : AdjacencyMatrix) (v : Nat) :
    (delete_vertex s v).2.vertices
      = andAssign s.vertices (promote (toShort (not32 (1 <<< v)))) := rfl

theorem delete_vertex_edges (s : AdjacencyMatrix) (v : Nat) :
    (delete_vertex s v).2.edges
      = clearColumn (toShort (not32 (1 <<< v))) (s.edges.set v 0) MAX_VERTICES := by
  simp only [delete_vertex, clearColumn]

theorem clearBoth_length (e : List Nat) (u v : Nat) : (clearBoth e u v).length = e.length := by
  simp [clearBoth]

theorem clearBoth_lt {e : List Nat} (u v : Nat) (hlt : ∀ a, e.getD a 0 < 65536) (a : Nat) :
    (clearBoth e u v).getD a 0 < 65536 := by
  unfold clearBoth
  rw [getD_set]
  split
  · exact andAssign_lt _ _
  · rw [getD_set]
    split
    · exact andAssign_lt _ _
    · exact hlt a

theorem clearBoth_testBit {e : List Nat} {u v a b : Nat} (hlen : e.length = 16)
    (hlt : ∀ a, e.getD a 0 < 65536) (ha : a < 16) (hb : b < 16) :
    ((clearBoth e u v).getD a 0).testBit b
      = ((e.getD a 0).testBit b && !(decide (a = u ∧ b = v) || decide (a = v ∧ b = u))) := by
  unfold clearBoth
  have hb32 : b < 32 := by omega
  have h1lt : ∀ j, (e.set u (andAssign (e.getD u 0) (not32 (1 <<< v)))).getD j 0 < 65536 := by
    intro j
    rw [getD_set]
    split
    · exact andAssign_lt _ _
    · exact hlt j
  by_cases hav : a = v
  · subst hav
    rw [getD_set, if_pos ⟨rfl, by simp [hlen, ha]⟩, andAssign_testBit _ (h1lt a) hb,
      not32_testBit _ hb32, shift_testBit, getD_set]
    by_cases hua : u = a
    · subst hua
      rw [if_pos ⟨rfl, by simp [hlen, ha]⟩, andAssign_testBit _ (hlt u) hb, not32_testBit _ hb32,
        shift_testBit]
      by_cases hbu : b = u
      · simp [hbu]
      · have : ¬ u = b := fun h => hbu h.symm
        simp [hbu, this]
    · rw [if_neg (fun h => hua h.1)]
      have hau : ¬ a = u := fun h => hua h.symm
      simp [hua, hau, eq_comm]
  · rw [getD_set, if_neg (fun h => hav h.1.symm), getD_set]
    by_cases hua : u = a
    · subst hua
      rw [if_pos ⟨rfl, by simp [hlen, ha]⟩, andAssign_testBit _ (hlt u) hb, not32_testBit _ hb32,
        shift_testBit]
      simp [hav, eq_comm]
    · rw [if_neg (fun h => hua h.1)]
      have hau : ¬ a = u := fun h => hua h.symm
      simp [hav, hau]

theorem delete_vertex_testBit {s : AdjacencyMatrix} {v a b : Nat} (hwf : WF s)
    (ha : a < 16) (hb : b < 16) :
    ((delete_vertex s v).2.edges.getD a 0).testBit b
      = ((s.edges.getD a 0).testBit b && (!decide (a = v) && !decide (b = v))) := by
  have h0 : (s.edges.set v 0).getD a 0 < 65536 := by
    rw [getD_set]
    split
    · decide
    · exact hwf.hrow a
  rw [delete_vertex_edges, clearColumn_getD, if_pos ⟨ha, by simp [hwf.hlen, ha]⟩,
    andAssign_testBit _ h0 hb, mask_testBit _ hb, getD_set]
  by_cases hva : v = a
  · subst hva
    rw [if_pos ⟨rfl, by simp [hwf.hlen, ha]⟩]
    simp
  · rw [if_neg (fun h => hva h.1)]
    have hav : ¬ a = v := fun h => hva h.symm
    simp [hav, eq_comm]

theorem delete_vertex_present {s : AdjacencyMatrix} {v i : Nat} (hwf : WF s) (hi : i < 16) :
    (delete_vertex s v).2.vertices.testBit i = (s.vertices.testBit i && !decide (i = v)) := by
  rw [delete_vertex_vertices, andAssign_testBit _ hwf.hv hi, mask_testBit _ hi]
  simp [eq_comm]

theorem add_vertex_present {s : AdjacencyMatrix} {v i : Nat} (hwf : WF s) (hi : i < 16) :
    (add_vertex s v).2.vertices.testBit i = (s.vertices.testBit i || decide (i = v)) := by
  rw [add_vertex_vertices, orAssign_testBit _ hwf.hv hi, shift_testBit]
  simp [eq_comm]

theorem add_edge_testBit {s : AdjacencyMatrix} {u v a b : Nat} (hwf : WF s) (hu : u < 16)
    (hv : v < 16) (ha : a < 16) (hb : b < 16) :
    ((add_edge s u v).2.edges.getD a 0).testBit b
      = ((s.edges.getD a 0).testBit b
          || (decide (u ≠ v) && (decide (a = u ∧ b = v) || decide (a = v ∧ b = u)))) := by
  rw [add_edge_edges]
  by_cases huv : u = v
  · subst huv
    simp
  · rw [if_pos (fun h => huv h.symm), setBoth_testBit hwf.hlen hwf.hrow hu hv huv ha hb]
    simp [huv]

theorem delete_edge_testBit {s : AdjacencyMatrix} {u v a b : Nat} (hwf : WF s)
    (ha : a < 16) (hb : b < 16) :
    ((delete_edge s u v).2.edges.getD a 0).testBit b
      = ((s.edges.getD a 0).testBit b && !(decide (a = u ∧ b = v) || decide (a = v ∧ b = u))) := by
  rw [delete_edge_edges, clearBoth_testBit hwf.hlen hwf.hrow ha hb]

theorem add_vertex_WF {s : AdjacencyMatrix} (v : Nat) (hwf : WF s) : WF (add_vertex s v).2 :=
  ⟨orAssign_lt _ _, hwf.hlen, hwf.hrow⟩

theorem delete_vertex_WF {s : AdjacencyMatrix} (v : Nat) (hwf : WF s) :
    WF (delete_vertex s v).2 := by
  refine ⟨andAssign_lt _ _, ?_, ?_⟩
  · rw [delete_vertex_edges, clearColumn_length, List.length_set, hwf.hlen]
  · intro a
    rw [delete_vertex_edges, clearColumn_getD]
    split
    · exact andAssign_lt _ _
    · rw [getD_set]
      split
      · decide
      · exact hwf.hrow a

theorem add_edge_WF {s : AdjacencyMatrix} (u v : Nat) (hwf : WF s) : WF (add_edge s u v).2 := by
  refine ⟨by rw [add_edge_vertices]; exact hwf.hv, ?_, ?_⟩
  · rw [add_edge_edges]
    split
    · rw [setBoth_length, hwf.hlen]
    · exact hwf.hlen
  · intro a
    rw [add_edge_edges]
    split
    · exact setBoth_lt u v hwf.hrow a
    · exact hwf.hrow a

theorem delete_edge_WF {s : AdjacencyMatrix} (u v : Nat) (hwf : WF s) :
    WF (delete_edge s u v).2 := by
  refine ⟨hwf.hv, ?_, ?_⟩
  · rw [delete_edge_edges, clearBoth_length, hwf.hlen]
  · intro a
    rw [delete_edge_edges]
    exact clearBoth_lt u v hwf.hrow a

theorem apply_WF {s : AdjacencyMatrix} (c : Call) (hwf : WF s) : WF (c.apply s) := by
  cases c with
  | addVertex v => exact add_vertex_WF v hwf
  | deleteVertex v => exact delete_vertex_WF v hwf
  | addEdge u v => exact add_edge_WF u v hwf
  | deleteEdge u v => exact delete_edge_WF u v hwf

theorem init_WF {n : Nat} {txt : List Int} (hwf : WellFormed n txt) (hn : n ≤ 16) :
    WF (AdjacencyMatrix_init (some txt)).2 := by
  have he := init_edges hwf hn
  exact ⟨by rw [init_vertices hwf]; exact toShort_lt _, he.hlen, he.hlt⟩

theorem apply_symmetric {s : AdjacencyMatrix} (c : Call) (hr : c.inRange = true) (hwf : WF s)
    (h : RowsSymmetric s) : RowsSymmetric (c.apply s) := by
  intro a b ha hb
  cases c with
  | addVertex v => exact h a b ha hb
  | deleteVertex v =>
    simp only [Call.apply]
    rw [delete_vertex_testBit hwf ha hb, delete_vertex_testBit hwf hb ha, h a b ha hb,
      Bool.and_comm (!decide (a = v))]
  | addEdge u v =>
    simp only [Call.inRange, MAX_VERTICES, Bool.and_eq_true, decide_eq_true_eq] at hr
    simp only [Call.apply]
    rw [add_edge_testBit hwf hr.1 hr.2 ha hb, add_edge_testBit hwf hr.1 hr.2 hb ha, h a b ha hb,
      Bool.or_comm (decide (a = u ∧ b = v))]
    simp only [and_comm]
  | deleteEdge u v =>
    simp only [Call.apply]
    rw [delete_edge_testBit hwf ha hb, delete_edge_testBit hwf hb ha,
      h a b ha hb, Bool.or_comm (decide (a = u ∧ b = v))]
    simp only [and_comm]

theorem run_WF (calls : List Call) {s : AdjacencyMatrix} (hwf : WF s) : WF (run s calls) := by
  induction calls generalizing s with
  | nil => exact hwf
  | cons c cs ih => exact ih (apply_WF c hwf)

theorem run_symmetric (calls : List Call) {s : AdjacencyMatrix}
    (hr : ∀ c ∈ calls, Call.inRange c = true) (hwf : WF s) (h : RowsSymmetric s) :
    RowsSymmetric (run s calls) := by
  induction calls generalizing s with
  | nil => exact h
  | cons c cs ih =>
    exact ih (fun d hd => hr d (List.mem_cons_of_mem _ hd)) (apply_WF c hwf)
      (apply_symmetric c (hr c (List.mem_cons_self _ _)) hwf h)

/-- C6: symmetry is a reachable-state invariant. In every state reached from a graph decoded
from a well-formed encoding by a finite sequence of `add_vertex`, `delete_vertex`, `add_edge` and
`delete_edge` calls with indices in `[0, 16)`, `is_edge(u, v) == is_edge(v, u)` on `[0, 16)`. -/
theorem C6_symmetry_reachable (n : Nat) (txt : List Int) (calls : List Call) (hn : n ≤ 16)
    (hwf : WellFormed n txt) (hr : ∀ c ∈ calls, Call.inRange c = true) :
    ∀ u v, u < 16 → v < 16 →
      is_edge (run (AdjacencyMatrix_init (some txt)).2 calls) u v
        = is_edge (run (AdjacencyMatrix_init (some txt)).2 calls) v u := by
  intro u v hu hv
  have hw := run_WF calls (init_WF hwf hn)
  have hs := run_symmetric calls hr (init_WF hwf hn) (init_edges hwf hn).hsym
  rw [is_edge_eq_testBit _ (hw.hrow u) hv, is_edge_eq_testBit _ (hw.hrow v) hu]
  exact hs u v hu hv

/-- Witness for C6: the triangle `"Bw"` after deleting vertex 1, adding vertex 5 and
the edge `(0, 5)`, and deleting the edge `(2, 0)`. -/
theorem C6_symmetry_reachable_witness :
    WellFormed 3 [66, 119] ∧
    (∀ c ∈ [Call.deleteVertex 1, Call.addVertex 5, Call.addEdge 0 5, Call.deleteEdge 2 0],
      Call.inRange c = true) ∧
    (∀ u v, u < 16 → v < 16 →
      is_edge (run (AdjacencyMatrix_init (some [66, 119])).2
          [Call.deleteVertex 1, Call.addVertex 5, Call.addEdge 0 5, Call.deleteEdge 2 0]) u v
        = is_edge (run (AdjacencyMatrix_init (some [66, 119])).2
          [Call.deleteVertex 1, Call.addVertex 5, Call.addEdge 0 5, Call.deleteEdge 2 0]) v u) :=
  ⟨by decide, by decide,
    C6_symmetry_reachable 3 [66, 119]
      [Call.deleteVertex 1, Call.addVertex 5, Call.addEdge 0 5, Call.deleteEdge 2 0]
      (by decide) (by decide) (by decide)⟩

theorem apply_closed {s : AdjacencyMatrix} (c : Call) (hwf : WF s)
    (hg : edgesAddedBetweenPresent s [c] = true) (h : RowsClosed s) : RowsClosed (c.apply s) := by
  intro a b ha hb hab
  cases c with
  | addVertex v =>
    simp only [Call.apply] at hab ⊢
    rw [add_vertex_edges] at hab
    have h1 := h a b ha hb hab
    rw [add_vertex_present hwf ha, add_vertex_present hwf hb, h1.1, h1.2]
    exact ⟨rfl, rfl⟩
  | deleteVertex v =>
    simp only [Call.apply] at hab ⊢
    rw [delete_vertex_testBit hwf ha hb] at hab
    simp only [Bool.and_eq_true] at hab
    have h1 := h a b ha hb hab.1
    rw [delete_vertex_present hwf ha, delete_vertex_present hwf hb, h1.1, h1.2, hab.2.1, hab.2.2]
    exact ⟨rfl, rfl⟩
  | addEdge u v =>
    simp only [edgesAddedBetweenPresent, Bool.and_true, Bool.and_eq_true, decide_eq_true_eq,
      mem_vertices s hwf.hv] at hg
    obtain ⟨⟨hu, hpu⟩, ⟨hv, hpv⟩⟩ := hg
    simp only [Call.apply] at hab ⊢
    rw [add_edge_vertices]
    rw [add_edge_testBit hwf hu hv ha hb] at hab
    simp only [Bool.or_eq_true, Bool.and_eq_true, decide_eq_true_eq] at hab
    rcases hab with hold | ⟨_, ⟨rfl, rfl⟩ | ⟨rfl, rfl⟩⟩
    · exact h a b ha hb hold
    · exact ⟨hpu, hpv⟩
    · exact ⟨hpv, hpu⟩
  | deleteEdge u v =>
    simp only [Call.apply] at hab ⊢
    rw [delete_edge_testBit hwf ha hb] at hab
    simp only [Bool.and_eq_true] at hab
    exact h a b ha hb hab.1

theorem run_closed (calls : List Call) {s : AdjacencyMatrix} (hwf : WF s)
    (hg : edgesAddedBetweenPresent s calls = true) (h : RowsClosed s) :
    RowsClosed (run s calls) := by
  induction calls generalizing s with
  | nil => exact h
  | cons c cs ih =>
    have hg1 : edgesAddedBetweenPresent s [c] = true := by
      simp only [edgesAddedBetweenPresent, Bool.and_eq_true] at hg ⊢
      exact ⟨hg.1, trivial⟩
    have hg2 : edgesAddedBetweenPresent (c.apply s) cs = true := by
      simp only [edgesAddedBetweenPresent, Bool.and_eq_true] at hg
      exact hg.2
    exact ih (apply_WF c hwf) hg2 (apply_closed c hwf hg1 h)

theorem init_closed {n : Nat} {txt : List Int} (hwf : WellFormed n txt) (hn : n ≤ 16) :
    RowsClosed (AdjacencyMatrix_init (some txt)).2 := by
  intro a b ha hb hab
  have hlt := init_edge_below hwf hn ha hb hab
  rw [init_vertices hwf, lowBits_testBit ha, lowBits_testBit hb]
  exact ⟨decide_eq_true hlt.1, decide_eq_true hlt.2⟩

/-- C7, as stated, fails: from the decoded empty graph `"?"`, the in-range call
`add_edge(0, 1)` yields `is_edge(0, 1)` with vertex 0 not in `vertices()`. -/
theorem C7_closure_counterexample :
    WellFormed 0 [63] ∧ (∀ c ∈ [Call.addEdge 0 1], Call.inRange c = true) ∧
    is_edge (run (AdjacencyMatrix_init (some [63])).2 [Call.addEdge 0 1]) 0 1 = true ∧
    0 ∉ vertices (run (AdjacencyMatrix_init (some [63])).2 [Call.addEdge 0 1]) := by
  decide

/-- C7 amended: closure holds in every state reached from a graph decoded from a well-formed
encoding by in-range `add_vertex`, `delete_vertex`, `add_edge`, `delete_edge` calls in which
every `add_edge(u, v)` is called while `u` and `v` are both in `vertices()`: whenever
`is_edge(u, v)` is true, `u` and `v` are members of `vertices()`. -/
theorem C7_closure_when_edges_added_between_present (n : Nat) (txt : List Int)
    (calls : List Call) (hn : n ≤ 16) (hwf : WellFormed n txt)
    (hr : ∀ c ∈ calls, Call.inRange c = true)
    (hg : edgesAddedBetweenPresent (AdjacencyMatrix_init (some txt)).2 calls = true) :
    ∀ u v, u < 16 → v < 16 →
      is_edge (run (AdjacencyMatrix_init (some txt)).2 calls) u v = true →
        u ∈ vertices (run (AdjacencyMatrix_init (some txt)).2 calls)
          ∧ v ∈ vertices (run (AdjacencyMatrix_init (some txt)).2 calls) := by
  intro u v hu hv he
  have _ := hr
  have hw := run_WF calls (init_WF hwf hn)
  have hc := run_closed calls (init_WF hwf hn) hg (init_closed hwf hn)
  rw [is_edge_eq_testBit _ (hw.hrow u) hv] at he
  have h1 := hc u v hu hv he
  rw [mem_vertices _ hw.hv, mem_vertices _ hw.hv]
  exact ⟨⟨hu, h1.1⟩, ⟨hv, h1.2⟩⟩

/-- Witness for the amended C7: the triangle `"Bw"` after deleting vertex 1, adding vertex 5
and the edge `(0, 5)`, and deleting the edge `(2, 0)`. -/
theorem C7_closure_when_edges_added_between_present_witness :
    WellFormed 3 [66, 119] ∧
    (∀ c ∈ [Call.deleteVertex 1, Call.addVertex 5, Call.addEdge 0 5, Call.deleteEdge 2 0],
      Call.inRange c = true) ∧
    edgesAddedBetweenPresent (AdjacencyMatrix_init (some [66, 119])).2
      [Call.deleteVertex 1, Call.addVertex 5, Call.addEdge 0 5, Call.deleteEdge 2 0] = true ∧
    (is_edge (run (AdjacencyMatrix_init (some [66, 119])).2
        [Call.deleteVertex 1, Call.addVertex 5, Call.addEdge 0 5, Call.deleteEdge 2 0]) 0 5 = true →
      0 ∈ vertices (run (AdjacencyMatrix_init (some [66, 119])).2
        [Call.deleteVertex 1, Call.addVertex 5, Call.addEdge 0 5, Call.deleteEdge 2 0])
      ∧ 5 ∈ vertices (run (AdjacencyMatrix_init (some [66, 119])).2
        [Call.deleteVertex 1, Call.addVertex 5, Call.addEdge 0 5, Call.deleteEdge 2 0])) :=
  ⟨by decide, by decide, by decide,
    C7_closure_when_edges_added_between_present 3 [66, 119]
      [Call.deleteVertex 1, Call.addVertex 5, Call.addEdge 0 5, Call.deleteEdge 2 0]
      (by decide) (by decide) (by decide) (by decide) 0 5 (by decide) (by decide)⟩

/-- C3, as stated, fails: with no encoding argument the text is `"?"`, whose header declares
`63 - 63 = 0` vertices, so `number_of_vertices()` is not 1 and `vertices()` is not `{0}`. -/
theorem C3_default_counterexample :
    ¬ (number_of_vertices (AdjacencyMatrix_init none).2 = 1
        ∧ (∀ i, i ∈ vertices (AdjacencyMatrix_init none).2 ↔ i = 0)
        ∧ number_of_edges (AdjacencyMatrix_init none).2 = 0) := by
  intro h
  exact absurd h.1 (by decide)

/-- C3 amended: constructing with no encoding argument succeeds and yields the graph with no
vertices: `number_of_vertices()` is 0, `vertices()` is empty, `number_of_edges()` is 0. -/
theorem C3_default_is_zero_vertex_graph :
    (AdjacencyMatrix_init none).1 = 0
    ∧ (AdjacencyMatrix_init none).2 = (AdjacencyMatrix_init (some [63])).2
    ∧ number_of_vertices (AdjacencyMatrix_init none).2 = 0
    ∧ vertices (AdjacencyMatrix_init none).2 = []
    ∧ number_of_edges (AdjacencyMatrix_init none).2 = 0 := by
  decide

/-! ## The counting loop and the sign bit

`number_of_vertices_helper` and `vertex_degree` count bits with `while (x > 0)` on a signed
`short`: a value with bit 15 set is negative and the loop body never runs. -/

theorem popcount_while_exit {x : Nat} (h : shortPos x = false) (fuel count : Nat) :
    popcount_while fuel x count = count := by
  cases fuel with
  | zero => rfl
  | succ f => simp [popcount_while, h]

theorem popcount_while_step {x : Nat} (h : shortPos x = true) (fuel count : Nat) :
    popcount_while (fuel + 1) x count
      = popcount_while fuel (x / 2) (if x % 2 = 1 then count + 1 else count) := by
  have hx : 0 < x ∧ x < 32768 := of_decide_eq_true h
  have hp : promote x = x := by
    unfold promote
    rw [if_pos hx.2]
  have hs : toShort (x >>> 1) = x / 2 := by
    unfold toShort
    rw [Nat.shiftRight_eq_div_pow, Nat.pow_one]
    omega
  have hb : (x &&& 1 ≠ 0) ↔ x % 2 = 1 := by
    rw [Nat.and_one_is_mod]
    omega
  rw [popcount_while, if_pos h, hp, hs]
  by_cases h2 : x % 2 = 1
  · rw [if_pos (hb.mpr h2), if_pos h2]
  · rw [if_neg (fun hc => h2 (hb.mp hc)), if_neg h2]

/-- The loop has exited after `k` iterations on a value below `2 ^ k`: more fuel changes
nothing. -/
theorem popcount_while_stable (k : Nat) :
    ∀ fuel x count, x < 2 ^ k → k ≤ fuel →
      popcount_while fuel x count = popcount_while k x count := by
  induction k with
  | zero =>
    intro fuel x count hx _
    have h0 : shortPos x = false := by
      have : x = 0 := by simpa using hx
      subst this
      rfl
    rw [popcount_while_exit h0, popcount_while_exit h0]
  | succ k ih =>
    intro fuel x count hx hf
    obtain ⟨f, rfl⟩ : ∃ f, fuel = f + 1 := ⟨fuel - 1, by omega⟩
    by_cases hpos : shortPos x = true
    · rw [popcount_while_step hpos, popcount_while_step hpos]
      have hx2 : x / 2 < 2 ^ k := by
        rw [Nat.pow_succ] at hx
        omega
      exact ih f (x / 2) _ hx2 (by omega)
    · have h0 : shortPos x = false := by simpa using hpos
      rw [popcount_while_exit h0, popcount_while_exit h0]

/-- The 16 iterations given to the counting loop are enough for every `short`: with any larger
bound the loop returns the same count. -/
theorem popcount_while_fuel (fuel x count : Nat) (hx : x < 65536) (hf : 16 ≤ fuel) :
    popcount_while fuel x count = popcount_while 16 x count :=
  popcount_while_stable 16 fuel x count (by omega) hf

theorem popcount_while_count (k : Nat) :
    ∀ x count, x < 2 ^ k → x < 32768 →
      popcount_while k x count = count + (List.range k).countP (fun i => x.testBit i) := by
  induction k with
  | zero =>
    intro x count _ _
    rfl
  | succ k ih =>
    intro x count hx hs
    rw [List.range_succ_eq_map, List.countP_cons, List.countP_map]
    have hfun : ((fun i => x.testBit i) ∘ Nat.succ) = (fun i => (x / 2).testBit i) := by
      funext i
      exact Nat.testBit_succ x i
    rw [hfun]
    by_cases hpos : shortPos x = true
    · have hx2 : x / 2 < 2 ^ k := by
        rw [Nat.pow_succ] at hx
        omega
      rw [popcount_while_step hpos, ih (x / 2) _ hx2 (by omega), Nat.testBit_zero]
      by_cases h2 : x % 2 = 1
      · simp only [h2, if_true, decide_True]
        omega
      · simp only [h2, if_false, decide_False]
        simp
    · have h0 : shortPos x = false := by simpa using hpos
      have hz : x = 0 := by
        unfold shortPos at h0
        have := of_decide_eq_false h0
        omega
      subst hz
      rw [popcount_while_exit h0]
      simp

/-- Below the sign bit the counting loop returns the population count. -/
theorem popcount_while_eq_bitCount {x : Nat} (hx : x < 32768) :
    popcount_while 16 x 0 = bitCount x := by
  rw [popcount_while_count 16 x 0 (by omega) hx, Nat.zero_add]
  rfl

/-- With the sign bit set the counting loop returns 0. -/
theorem popcount_while_sign_bit {x : Nat} (hx : 32768 ≤ x) : popcount_while 16 x 0 = 0 := by
  apply popcount_while_exit
  unfold shortPos
  exact decide_eq_false (by omega)

theorem foldl_PySet_Add_eq_filter (p : Nat → Prop) [DecidablePred p] (l : List Nat) :
    ∀ acc : List Nat, l.Nodup → (∀ x ∈ l, x ∉ acc) →
      l.foldl (fun verts i => if p i then PySet_Add verts i else verts) acc
        = acc ++ l.filter (fun i => decide (p i)) := by
  induction l with
  | nil => intro acc _ _; simp
  | cons a l ih =>
    intro acc hnd hdis
    have hnd' := List.nodup_cons.mp hnd
    rw [List.foldl_cons]
    by_cases hp : p a
    · have hna : a ∉ acc := hdis a (List.mem_cons_self _ _)
      have hadd : PySet_Add acc a = acc ++ [a] := by
        unfold PySet_Add
        rw [if_neg hna]
      rw [if_pos hp, hadd, ih (acc ++ [a]) hnd'.2 (by
        intro x hx hmem
        rcases List.mem_append.mp hmem with h | h
        · exact hdis x (List.mem_cons_of_mem _ hx) h
        · have : x = a := by simpa using h
          subst this
          exact hnd'.1 hx)]
      simp [hp]
    · rw [if_neg hp, ih acc hnd'.2 (fun x hx => hdis x (List.mem_cons_of_mem _ hx))]
      simp [hp]

theorem bits_set_length {x : Nat} (hx : x < 65536) :
    ((List.range MAX_VERTICES).foldl
      (fun verts i => if andBit x i ≠ 0 then PySet_Add verts i else verts) []).length
      = bitCount x := by
  rw [foldl_PySet_Add_eq_filter (fun i => andBit x i ≠ 0) _ [] (List.nodup_range _)
    (fun _ _ => List.not_mem_nil _), List.nil_append, ← List.countP_eq_length_filter]
  unfold bitCount MAX_VERTICES
  apply List.countP_congr
  intro i hi
  have hi' : i < 16 := List.mem_range.mp hi
  simp only [decide_eq_true_eq]
  exact andBit_ne_zero hx hi'

theorem vertices_length {s : AdjacencyMatrix} (h : s.vertices < 65536) :
    (vertices s).length = bitCount s.vertices :=
  bits_set_length h

theorem vertex_neighbors_length {s : AdjacencyMatrix} {v : Nat}
    (h : s.edges.getD v 0 < 65536) :
    (vertex_neighbors s v).length = bitCount (s.edges.getD v 0) :=
  bits_set_length h

/-- C9 below the sign bit: when bit 15 of `present_vertices` is clear, `number_of_vertices()`
is the population count, the size of `vertices()`. -/
theorem number_of_vertices_eq_card {s : AdjacencyMatrix} (h : s.vertices < 32768) :
    number_of_vertices s = bitCount s.vertices
      ∧ number_of_vertices s = (vertices s).length := by
  have h1 : number_of_vertices s = bitCount s.vertices := popcount_while_eq_bitCount h
  exact ⟨h1, by rw [h1, vertices_length (by omega)]⟩

/-- C10 below the sign bit: when bit 15 of `adjacency[v]` is clear, `vertex_degree(v)` is the
population count of the row, the size of `vertex_neighbors(v)`. -/
theorem vertex_degree_eq_card {s : AdjacencyMatrix} {v : Nat} (h : s.edges.getD v 0 < 32768) :
    vertex_degree s v = bitCount (s.edges.getD v 0)
      ∧ vertex_degree s v = (vertex_neighbors s v).length := by
  have h1 : vertex_degree s v = bitCount (s.edges.getD v 0) := popcount_while_eq_bitCount h
  exact ⟨h1, by rw [h1, vertex_neighbors_length (by omega)]⟩

/-- With bit 15 set, both counts are 0 whatever the other bits are. -/
theorem counts_zero_of_sign_bit (s : AdjacencyMatrix) (v : Nat) :
    (32768 ≤ s.vertices → number_of_vertices s = 0)
      ∧ (32768 ≤ s.edges.getD v 0 → vertex_degree s v = 0) :=
  ⟨fun h => popcount_while_sign_bit h, fun h => popcount_while_sign_bit h⟩

/-- C2 below 16: for `n ≤ 15` the encoding of the empty graph on `n` vertices decodes to a graph
with `number_of_vertices() = n` and `number_of_edges() = 0`. -/
theorem empty_roundtrip_below_sixteen (n : Nat) (hn : n ≤ 15) :
    number_of_vertices (AdjacencyMatrix_init
        (some ((63 + (n : Int)) :: List.replicate ((n * (n - 1) / 2 + 5) / 6) 63))).2 = n
    ∧ number_of_edges (AdjacencyMatrix_init
        (some ((63 + (n : Int)) :: List.replicate ((n * (n - 1) / 2 + 5) / 6) 63))).2 = 0 := by
  interval_cases n <;> decide

theorem bne_zero_eq (x : Nat) : (x != 0) = decide (x ≠ 0) := by
  by_cases h : x = 0
  · subst h
    rfl
  · rw [decide_eq_true h]
    exact bne_iff_ne.mpr h

theorem body_iff (s : AdjacencyMatrix) (u v : Nat) :
    is_complete_bipartite_body s.edges u v = true
      ↔ (u ≠ v → (is_edge s u v = true ↔ is_edge s 0 u ≠ is_edge s 0 v)) := by
  unfold is_complete_bipartite_body is_edge
  rw [bne_zero_eq, bne_zero_eq, bne_zero_eq]
  by_cases huv : u = v
  · simp [huv]
  · by_cases h1 : is_edge_helper s.edges u v = 0 <;>
      by_cases h2 : is_edge_helper s.edges 0 u = 0 <;>
      by_cases h3 : is_edge_helper s.edges 0 v = 0 <;>
      simp [huv, h1, h2, h3]

theorem vertices_eq_lowBits {s : AdjacencyMatrix} {n : Nat} (hv : s.vertices < 65536)
    (hn : n ≤ 16) (hpres : ∀ i, i ∈ vertices s ↔ i < n) : s.vertices = 2 ^ n - 1 := by
  apply Nat.eq_of_testBit_eq
  intro i
  rw [Nat.testBit_two_pow_sub_one]
  by_cases hi : i < 16
  · have h := hpres i
    rw [mem_vertices s hv] at h
    by_cases hin : i < n
    · rw [(h.mpr hin).2, decide_eq_true hin]
    · have hf : ¬ s.vertices.testBit i = true := fun hc => hin (h.mp ⟨hi, hc⟩)
      rw [Bool.eq_false_iff.mpr hf, decide_eq_false hin]
  · have h16 : s.vertices < 2 ^ i :=
      Nat.lt_of_lt_of_le hv (Nat.pow_le_pow_right (by decide) (Nat.le_of_not_lt hi) : 2 ^ 16 ≤ 2 ^ i)
    rw [Nat.testBit_lt_two_pow h16, decide_eq_false (by omega)]

theorem helper_lowBits (n : Nat) (hn : n ≤ 15) : number_of_vertices_helper (2 ^ n - 1) = n := by
  interval_cases n <;> decide

/-- C8 below 16: for a graph whose present vertices are exactly `{0, ..., n-1}` with `n ≤ 15`
and without self-loops, `is_complete_bipartite()` returns true exactly when
`{0, ..., n-1}` splits into two sides with two distinct vertices adjacent iff they lie on
different sides. -/
theorem is_complete_bipartite_below_sixteen (s : AdjacencyMatrix) (n : Nat) (hn : n ≤ 15)
    (hwf : WF s) (hpres : ∀ i, i ∈ vertices s ↔ i < n)
    (hirr : ∀ u, u < 16 → is_edge s u u = false) :
    is_complete_bipartite s = true
      ↔ ∃ side : Nat → Bool, ∀ u v, u < n → v < n → u ≠ v →
          (is_edge s u v = true ↔ side u ≠ side v) := by
  have hN : number_of_vertices_helper s.vertices = n := by
    rw [vertices_eq_lowBits hwf.hv (by omega) hpres]
    exact helper_lowBits n hn
  unfold is_complete_bipartite
  simp only [hN, List.all_eq_true, List.mem_range, body_iff]
  constructor
  · intro h
    exact ⟨fun u => is_edge s 0 u, fun u v hu hv huv => h u hu v hv huv⟩
  · rintro ⟨side, h⟩ u hu v hv
    have h0 : ∀ w, w < n → (is_edge s 0 w = true ↔ side 0 ≠ side w) := by
      intro w hw
      by_cases hw0 : w = 0
      · subst hw0
        rw [hirr 0 (by omega)]
        simp
      · exact h 0 w (by omega) hw (fun hc => hw0 hc.symm)
    have hu0 := h0 u hu
    have hv0 := h0 v hv
    intro huv
    have huv' := h u v hu hv huv
    rw [huv']
    cases h1 : is_edge s 0 u <;> cases h2 : is_edge s 0 v <;>
      cases h4 : side 0 <;> cases h5 : side u <;> cases h6 : side v <;>
      simp [h1, h2, h4, h5, h6] at hu0 hv0 ⊢

/-- C8, the `K(2,3)` scenario: from the default object, adding vertices `0..4` and the six
edges between `{0,1}` and `{2,3,4}` gives `is_complete_bipartite() = True`; adding any one edge
inside a side then gives `False`. -/
theorem K23_is_complete_bipartite :
    is_complete_bipartite (run (AdjacencyMatrix_init none).2 K23) = true
    ∧ is_complete_bipartite (run (AdjacencyMatrix_init none).2 (K23 ++ [Call.addEdge 0 1])) = false
    ∧ is_complete_bipartite (run (AdjacencyMatrix_init none).2 (K23 ++ [Call.addEdge 2 3])) = false
    ∧ is_complete_bipartite (run (AdjacencyMatrix_init none).2 (K23 ++ [Call.addEdge 2 4])) = false
    ∧ is_complete_bipartite (run (AdjacencyMatrix_init none).2 (K23 ++ [Call.addEdge 3 4])) = false := by
  decide

theorem foldl_count (p : Nat → Prop) [DecidablePred p] (l : List Nat) :
    ∀ acc : Nat, l.foldl (fun n j => if p j then n + 1 else n) acc
      = acc + l.countP (fun j => decide (p j)) := by
  induction l with
  | nil => intro acc; rfl
  | cons a l ih =>
    intro acc
    rw [List.foldl_cons, ih, List.countP_cons]
    by_cases hp : p a
    · simp only [hp, if_true, decide_True]
      omega
    · simp only [hp, if_false, decide_False]
      simp

theorem foldl_add_map (g : Nat → Nat) (l : List Nat) :
    ∀ acc : Nat, l.foldl (fun n i => n + g i) acc = acc + (l.map g).sum := by
  induction l with
  | nil => intro acc; rfl
  | cons a l ih =>
    intro acc
    rw [List.foldl_cons, ih, List.map_cons, List.sum_cons]
    omega

theorem sum_map_add_indicator (f : Nat → Nat) (p : Nat → Bool) (l : List Nat) :
    (l.map (fun i => f i + if p i then 1 else 0)).sum = (l.map f).sum + l.countP p := by
  induction l with
  | nil => rfl
  | cons a l ih =>
    rw [List.map_cons, List.sum_cons, ih, List.map_cons, List.sum_cons, List.countP_cons]
    omega

theorem sum_map_filter (f : Nat → Nat) (p : Nat → Bool) (l : List Nat)
    (h : ∀ i ∈ l, p i = false → f i = 0) : ((l.filter p).map f).sum = (l.map f).sum := by
  induction l with
  | nil => rfl
  | cons a l ih =>
    have ih' := ih (fun i hi => h i (List.mem_cons_of_mem _ hi))
    cases hp : p a
    · rw [List.filter_cons_of_neg (by simp [hp]), ih', List.map_cons, List.sum_cons,
        h a (List.mem_cons_self _ _) hp, Nat.zero_add]
    · rw [List.filter_cons_of_pos hp, List.map_cons, List.sum_cons, ih', List.map_cons,
        List.sum_cons]

/-- Double counting: over a symmetric irreflexive relation on `[0, N)`, the ordered pairs are
twice the pairs `(i, j)` with `j < i`. -/
theorem sum_countP_symmetric (b : Nat → Nat → Bool) (N : Nat)
    (hsym : ∀ i j, i < N → j < N → b i j = b j i) (hirr : ∀ i, i < N → b i i = false) :
    ∀ n, n ≤ N →
      ((List.range n).map (fun i => (List.range n).countP (b i))).sum
        = 2 * ((List.range n).map (fun i => (List.range i).countP (b i))).sum := by
  intro n
  induction n with
  | zero => intro _; rfl
  | succ n ih =>
    intro hn
    have hcol : (List.range n).countP (fun i => b i n) = (List.range n).countP (b n) := by
      apply List.countP_congr
      intro i hi
      have hi' : i < n := List.mem_range.mp hi
      rw [hsym i n (by omega) (by omega)]
    have hrows : (List.range n).map (fun i => (List.range (n + 1)).countP (b i))
        = (List.range n).map (fun i => (List.range n).countP (b i) + if b i n then 1 else 0) := by
      apply List.map_congr_left
      intro i _
      rw [List.range_succ, List.countP_append, List.countP_cons, List.countP_nil, Nat.zero_add]
    have hlast : (List.range (n + 1)).countP (b n) = (List.range n).countP (b n) := by
      rw [List.range_succ, List.countP_append, List.countP_cons, List.countP_nil,
        hirr n (by omega)]
      simp
    rw [List.range_succ, List.map_append, List.map_append, List.sum_append, List.sum_append,
      ← List.range_succ, hrows, sum_map_add_indicator, hcol, ih (by omega)]
    simp only [List.map_cons, List.map_nil, List.sum_cons, List.sum_nil, hlast]
    omega

/-- The sum over all rows of the number of set bits among columns `[0, 16)`. -/
theorem number_of_edges_eq (s : AdjacencyMatrix) (hrow : ∀ a, s.edges.getD a 0 < 65536) :
    number_of_edges s
      = ((List.range 16).map (fun i => bitCount (s.edges.getD i 0))).sum / 2 := by
  unfold number_of_edges MAX_VERTICES
  have hinner : ∀ i n, (List.range 16).foldl
      (fun numberOfEdges j =>
        if andBit (s.edges.getD i 0) j ≠ 0 then numberOfEdges + 1 else numberOfEdges) n
      = n + bitCount (s.edges.getD i 0) := by
    intro i n
    rw [foldl_count (fun j => andBit (s.edges.getD i 0) j ≠ 0)]
    congr 1
    unfold bitCount
    apply List.countP_congr
    intro j hj
    simp only [decide_eq_true_eq]
    exact andBit_ne_zero (hrow i) (List.mem_range.mp hj)
  simp only [hinner]
  rw [foldl_add_map, Nat.zero_add]

theorem lt_of_bit15_clear {x : Nat} (hx : x < 65536) (h : x.testBit 15 = false) : x < 32768 := by
  by_contra hcon
  have h1 := Nat.testBit_two_pow_add_eq (x - 32768) 15
  have h2 : (x - 32768).testBit 15 = false := Nat.testBit_lt_two_pow (by omega)
  have h3 : 2 ^ 15 + (x - 32768) = x := by omega
  rw [h3, h2, h] at h1
  cases h1

/-- C5 below the sign bit: in a symmetric, loop-free, closed state in which no vertex is
adjacent to vertex 15, `2 * number_of_edges()` is the sum of `vertex_degree(v)` over `vertices()`. -/
theorem degree_sum_without_vertex_15 (s : AdjacencyMatrix) (hwf : WF s)
    (hsym : ∀ u v, u < 16 → v < 16 → is_edge s u v = is_edge s v u)
    (hirr : ∀ u, u < 16 → is_edge s u u = false)
    (hcl : ∀ u v, u < 16 → v < 16 → is_edge s u v = true → u ∈ vertices s ∧ v ∈ vertices s)
    (h15 : ∀ u, u < 16 → is_edge s u 15 = false) :
    2 * number_of_edges s = ((vertices s).map (vertex_degree s)).sum := by
  have hbit : ∀ u v, v < 16 → is_edge s u v = (s.edges.getD u 0).testBit v :=
    fun u v hv => is_edge_eq_testBit s (hwf.hrow u) hv
  have hsmall : ∀ u, s.edges.getD u 0 < 32768 := by
    intro u
    by_cases hu : u < 16
    · exact lt_of_bit15_clear (hwf.hrow u) (by rw [← hbit u 15 (by decide)]; exact h15 u hu)
    · rw [List.getD_eq_getElem?_getD, List.getElem?_eq_none (by rw [hwf.hlen]; omega)]
      decide
  -- the total number of set bits is even
  have hdouble := sum_countP_symmetric (fun i j => (s.edges.getD i 0).testBit j) 16
    (fun i j hi hj => by
      show (s.edges.getD i 0).testBit j = (s.edges.getD j 0).testBit i
      rw [← hbit i j hj, ← hbit j i hi]
      exact hsym i j hi hj)
    (fun i hi => by
      show (s.edges.getD i 0).testBit i = false
      rw [← hbit i i hi]
      exact hirr i hi) 16 (Nat.le_refl 16)
  have htotal : ((List.range 16).map (fun i => bitCount (s.edges.getD i 0))).sum
      = 2 * ((List.range 16).map
          (fun i => (List.range i).countP (fun j => (s.edges.getD i 0).testBit j))).sum := hdouble
  -- the degrees of the present vertices
  have hverts : vertices s
      = (List.range 16).filter (fun i => decide (andBit s.vertices i ≠ 0)) := by
    unfold vertices MAX_VERTICES
    rw [foldl_PySet_Add_eq_filter (fun i => andBit s.vertices i ≠ 0) _ [] (List.nodup_range _)
      (fun _ _ => List.not_mem_nil _), List.nil_append]
  have hdeg : ∀ v, vertex_degree s v = bitCount (s.edges.getD v 0) :=
    fun v => (vertex_degree_eq_card (hsmall v)).1
  have habsent : ∀ i ∈ List.range 16, decide (andBit s.vertices i ≠ 0) = false →
      vertex_degree s i = 0 := by
    intro i hi hp
    have hi' : i < 16 := List.mem_range.mp hi
    have hnot : i ∉ vertices s := by
      rw [mem_vertices s hwf.hv]
      rintro ⟨_, hb⟩
      exact (of_decide_eq_false hp) ((andBit_ne_zero hwf.hv hi').mpr hb)
    rw [hdeg, bitCount, List.countP_eq_zero]
    intro j hj hbj
    have hj' : j < 16 := List.mem_range.mp hj
    exact hnot (hcl i j hi' hj' (by rw [hbit i j hj']; exact hbj)).1
  rw [hverts, sum_map_filter _ _ _ habsent, number_of_edges_eq s hwf.hrow, htotal]
  have hmap : (List.range 16).map (vertex_degree s)
      = (List.range 16).map (fun i => bitCount (s.edges.getD i 0)) :=
    List.map_congr_left (fun i _ => hdeg i)
  rw [hmap, htotal]
  omega

/-- The degree-sum law on the triangle `"Bw"`, where no row has bit 15 set. -/
theorem degree_sum_without_vertex_15_example :
    2 * number_of_edges (AdjacencyMatrix_init (some [66, 119])).2
      = ((vertices (AdjacencyMatrix_init (some [66, 119])).2).map
          (vertex_degree (AdjacencyMatrix_init (some [66, 119])).2)).sum :=
  degree_sum_without_vertex_15 _ (init_WF (n := 3) (by decide) (by decide))
    (init_is_edge_symm (n := 3) (by decide) (by decide))
    (init_is_edge_irrefl (n := 3) (by decide) (by decide))
    (fun u v hu hv h => by
      have hlt := init_is_edge_below (n := 3) (by decide) (by decide) u v hu hv h
      exact ⟨(init_mem_vertices (by decide) (by decide) u).mpr hlt.1,
        (init_mem_vertices (by decide) (by decide) v).mpr hlt.2⟩)
    (by decide)

/-- The complete-bipartite criterion on the path `0 - 1`, `0 - 2` decoded from `"Bo"`
(stream bits `1, 1, 0`): the check succeeds, so a split exists. -/
theorem is_complete_bipartite_below_sixteen_example :
    ∃ side : Nat → Bool, ∀ u v, u < 3 → v < 3 → u ≠ v →
      (is_edge (AdjacencyMatrix_init (some [66, 111])).2 u v = true ↔ side u ≠ side v) :=
  (is_complete_bipartite_below_sixteen (AdjacencyMatrix_init (some [66, 111])).2 3 (by decide)
    (init_WF (n := 3) (by decide) (by decide))
    (init_mem_vertices (by decide) (by decide)) (by decide)).mp (by decide)

/-- C2 at `n = 16`: the empty graph on 16 vertices decodes to a state with all sixteen vertices
present and no edge, and `number_of_vertices()` returns 0 instead of 16. -/
theorem C2_roundtrip_sixteen_vertices :
    empty16 = 79 :: List.replicate ((16 * (16 - 1) / 2 + 5) / 6) 63
    ∧ WellFormed 16 empty16
    ∧ (AdjacencyMatrix_init (some empty16)).2.vertices = 65535
    ∧ number_of_vertices (AdjacencyMatrix_init (some empty16)).2 = 0
    ∧ number_of_edges (AdjacencyMatrix_init (some empty16)).2 = 0 := by
  decide

/-- C5 on the 16-vertex graph with the single edge `{0, 15}`: `2 * number_of_edges()` is 2 while
the degrees of the members of `vertices()` sum to 1, because `vertex_degree(0)` is 0. -/
theorem C5_degree_sum_edge_0_15 :
    WellFormed 16 edge_0_15
    ∧ 2 * number_of_edges (AdjacencyMatrix_init (some edge_0_15)).2 = 2
    ∧ ((vertices (AdjacencyMatrix_init (some edge_0_15)).2).map
        (vertex_degree (AdjacencyMatrix_init (some edge_0_15)).2)).sum = 1
    ∧ vertex_degree (AdjacencyMatrix_init (some edge_0_15)).2 0 = 0
    ∧ vertex_degree (AdjacencyMatrix_init (some edge_0_15)).2 15 = 1 := by
  decide

/-- C8 at `n = 16`: on the 16-vertex graph with the single edge `{0, 1}` the vertex count
is computed as 0, no pair is examined and `is_complete_bipartite()` returns true, although no
split of `{0, ..., 15}` makes adjacency coincide with lying on different sides. -/
theorem C8_complete_bipartite_sixteen_vertices :
    WellFormed 16 edge_0_1
    ∧ (∀ i, i ∈ vertices (AdjacencyMatrix_init (some edge_0_1)).2 ↔ i < 16)
    ∧ is_complete_bipartite (AdjacencyMatrix_init (some edge_0_1)).2 = true
    ∧ ¬ ∃ side : Nat → Bool, ∀ u v, u < 16 → v < 16 → u ≠ v →
        (is_edge (AdjacencyMatrix_init (some edge_0_1)).2 u v = true ↔ side u ≠ side v) := by
  refine ⟨by decide, ?_, by decide, ?_⟩
  · exact init_mem_vertices (by decide) (by decide)
  · rintro ⟨side, h⟩
    have h01 := (h 0 1 (by decide) (by decide) (by decide)).mp (by decide)
    have h02 := (h 0 2 (by decide) (by decide) (by decide)).not.mp (by decide)
    have h12 := (h 1 2 (by decide) (by decide) (by decide)).not.mp (by decide)
    simp only [ne_eq, not_not] at h02 h12
    exact h01 (h02.trans h12.symm)

/-- C9 on the decoded empty graph on 16 vertices: `present_vertices` is `0xFFFF`, the set
`vertices()` has 16 elements and `number_of_vertices()` returns 0. -/
theorem C9_number_of_vertices_sign_bit :
    (AdjacencyMatrix_init (some empty16)).2.vertices = 65535
    ∧ (vertices (AdjacencyMatrix_init (some empty16)).2).length = 16
    ∧ number_of_vertices (AdjacencyMatrix_init (some empty16)).2 = 0 := by
  decide

/-- C10 on the 16-vertex graph with the single edge `{0, 15}`: `vertex_neighbors(0)` is `{15}`,
one `w` in `[0, 16)` has `is_edge(0, w)`, and `vertex_degree(0)` returns 0. -/
theorem C10_vertex_degree_sign_bit :
    WellFormed 16 edge_0_15
    ∧ (AdjacencyMatrix_init (some edge_0_15)).2.edges.getD 0 0 = 32768
    ∧ vertex_neighbors (AdjacencyMatrix_init (some edge_0_15)).2 0 = [15]
    ∧ ((List.range 16).filter
        (fun w => is_edge (AdjacencyMatrix_init (some edge_0_15)).2 0 w)).length = 1
    ∧ vertex_degree (AdjacencyMatrix_init (some edge_0_15)).2 0 = 0 := by
  decide

/-! ## Postconditions of the mutations -/

theorem eq_of_testBit_low {x y : Nat} (hx : x < 65536) (hy : y < 65536)
    (h : ∀ i, i < 16 → x.testBit i = y.testBit i) : x = y := by
  apply Nat.eq_of_testBit_eq
  intro i
  by_cases hi : i < 16
  · exact h i hi
  · have h16 : (2 : Nat) ^ 16 ≤ 2 ^ i := Nat.pow_le_pow_right (by decide) (Nat.le_of_not_lt hi)
    rw [Nat.testBit_lt_two_pow (Nat.lt_of_lt_of_le hx h16),
      Nat.testBit_lt_two_pow (Nat.lt_of_lt_of_le hy h16)]

theorem rows_ext {l₁ l₂ : List Nat} (h₁ : l₁.length = 16) (h₂ : l₂.length = 16)
    (h : ∀ a, a < 16 → l₁.getD a 0 = l₂.getD a 0) : l₁ = l₂ := by
  apply List.ext_getElem (by rw [h₁, h₂])
  intro n hn₁ hn₂
  have hn : n < 16 := by omega
  have := h n hn
  simpa [List.getD_eq_getElem?_getD, List.getElem?_eq_getElem hn₁,
    List.getElem?_eq_getElem hn₂] using this

/-- Two well-formed states with the same presence bits and the same row bits are equal. -/
theorem state_ext {s t : AdjacencyMatrix} (hs : WF s) (ht : WF t)
    (hv : ∀ i, i < 16 → s.vertices.testBit i = t.vertices.testBit i)
    (he : ∀ a b, a < 16 → b < 16 →
      (s.edges.getD a 0).testBit b = (t.edges.getD a 0).testBit b) : s = t := by
  have h1 : s.vertices = t.vertices := eq_of_testBit_low hs.hv ht.hv hv
  have h2 : s.edges = t.edges :=
    rows_ext hs.hlen ht.hlen (fun a ha => eq_of_testBit_low (hs.hrow a) (ht.hrow a) (fun b hb => he a b ha hb))
  cases s
  cases t
  simp only at h1 h2
  rw [h1, h2]

/-- C16: self-loops are rejected. `add_edge(v, v)` leaves `present_vertices` and every
adjacency row unchanged, so `number_of_edges()` is unchanged and `is_edge(v, v)` stays false. -/
theorem C16_add_edge_self_is_noop (s : AdjacencyMatrix) (v : Nat) :
    (add_edge s v v).2.vertices = s.vertices
    ∧ (add_edge s v v).2.edges = s.edges
    ∧ number_of_edges (add_edge s v v).2 = number_of_edges s
    ∧ (is_edge s v v = false → is_edge (add_edge s v v).2 v v = false) := by
  have h : (add_edge s v v).2 = s := by
    unfold add_edge
    rw [if_neg (fun hc => hc rfl)]
  rw [h]
  exact ⟨rfl, rfl, rfl, fun h0 => h0⟩

/-- C18: `is_complete_bipartite` follows the vertex-0 oracle rule. With
`n = number_of_vertices()`, it returns true iff for every ordered pair `(u, v)`, `u ≠ v`, in
`[0, n)`, `is_edge(u, v)` holds exactly when precisely one of `is_edge(0, u)`, `is_edge(0, v)`
holds; it returns false iff some such pair violates this. -/
theorem C18_complete_bipartite_oracle_rule (s : AdjacencyMatrix) :
    (is_complete_bipartite s = true ↔
      ∀ u v, u < number_of_vertices s → v < number_of_vertices s → u ≠ v →
        (is_edge s u v = true ↔
          (is_edge s 0 u = true ∧ is_edge s 0 v = false)
            ∨ (is_edge s 0 u = false ∧ is_edge s 0 v = true)))
    ∧ (is_complete_bipartite s = false ↔
      ∃ u v, u < number_of_vertices s ∧ v < number_of_vertices s ∧ u ≠ v ∧
        ¬ (is_edge s u v = true ↔
          (is_edge s 0 u = true ∧ is_edge s 0 v = false)
            ∨ (is_edge s 0 u = false ∧ is_edge s 0 v = true))) := by
  have hone : ∀ x y : Bool, x ≠ y ↔ (x = true ∧ y = false) ∨ (x = false ∧ y = true) := by
    intro x y
    cases x <;> cases y <;> simp
  have htrue : is_complete_bipartite s = true ↔
      ∀ u v, u < number_of_vertices s → v < number_of_vertices s → u ≠ v →
        (is_edge s u v = true ↔
          (is_edge s 0 u = true ∧ is_edge s 0 v = false)
            ∨ (is_edge s 0 u = false ∧ is_edge s 0 v = true)) := by
    unfold is_complete_bipartite number_of_vertices
    simp only [List.all_eq_true, List.mem_range, body_iff, hone]
    constructor
    · intro h u v hu hv huv
      exact h u hu v hv huv
    · intro h u hu v hv huv
      exact h u v hu hv huv
  refine ⟨htrue, ?_⟩
  rw [← Bool.not_eq_true, htrue]
  constructor
  · intro h
    by_contra hcon
    apply h
    intro u v hu hv huv
    by_contra hbad
    exact hcon ⟨u, v, hu, hv, huv, hbad⟩
  · rintro ⟨u, v, hu, hv, huv, hbad⟩ h
    exact hbad (h u v hu hv huv)

theorem is_edge_run_eq (s : AdjacencyMatrix) (hwf : WF s) {u v : Nat} (hv : v < 16) :
    is_edge s u v = (s.edges.getD u 0).testBit v :=
  is_edge_eq_testBit s (hwf.hrow u) hv

/-- C20: `add_vertex` postcondition. After `add_vertex(v)` with `v` in `[0, 16)`, `vertices()`
is the old set with `v` added, every adjacency row is unchanged, the state is unchanged when `v`
was already present, and the returned indicator is false; `delete_vertex` returns true. -/
theorem C20_add_vertex_postcondition (s : AdjacencyMatrix) (v : Nat) (hwf : WF s)
    (hv : v < 16) :
    (∀ i, i ∈ vertices (add_vertex s v).2 ↔ i ∈ vertices s ∨ i = v)
    ∧ (add_vertex s v).2.edges = s.edges
    ∧ (v ∈ vertices s → (add_vertex s v).2 = s)
    ∧ (add_vertex s v).1 = false
    ∧ (delete_vertex s v).1 = true := by
  have hwf' := add_vertex_WF v hwf
  refine ⟨?_, rfl, ?_, rfl, rfl⟩
  · intro i
    rw [mem_vertices _ hwf'.hv, mem_vertices _ hwf.hv]
    constructor
    · rintro ⟨hi, hb⟩
      rw [add_vertex_present hwf hi, Bool.or_eq_true, decide_eq_true_eq] at hb
      rcases hb with hb | hb
      · exact Or.inl ⟨hi, hb⟩
      · exact Or.inr hb
    · rintro (⟨hi, hb⟩ | rfl)
      · exact ⟨hi, by rw [add_vertex_present hwf hi, hb, Bool.true_or]⟩
      · exact ⟨hv, by rw [add_vertex_present hwf hv, decide_eq_true rfl, Bool.or_true]⟩
  · intro hmem
    have hb := ((mem_vertices s hwf.hv v).mp hmem).2
    apply state_ext hwf' hwf
    · intro i hi
      rw [add_vertex_present hwf hi]
      by_cases hiv : i = v
      · subst hiv
        rw [hb, Bool.true_or]
      · rw [decide_eq_false hiv, Bool.or_false]
    · intro a b _ _
      rw [add_vertex_edges]

/-- Witness for C20: adding vertex 5 to the triangle `"Bw"`. -/
theorem C20_add_vertex_postcondition_witness :
    (∀ i, i ∈ vertices (add_vertex (AdjacencyMatrix_init (some [66, 119])).2 5).2
      ↔ i ∈ vertices (AdjacencyMatrix_init (some [66, 119])).2 ∨ i = 5)
    ∧ (add_vertex (AdjacencyMatrix_init (some [66, 119])).2 5).1 = false :=
  ⟨(C20_add_vertex_postcondition (AdjacencyMatrix_init (some [66, 119])).2 5
      (init_WF (n := 3) (by decide) (by decide)) (by decide)).1,
    (C20_add_vertex_postcondition (AdjacencyMatrix_init (some [66, 119])).2 5
      (init_WF (n := 3) (by decide) (by decide)) (by decide)).2.2.2.1⟩

/-- C13: `delete_vertex` postcondition. After `delete_vertex(v)` with `v` in `[0, 16)`, `v` is
not in `vertices()`, `vertex_degree(v)` is 0, `is_edge(v, w)` and `is_edge(w, v)` are false for
all `w` in `[0, 16)`, the presence of every other vertex is unchanged, and `is_edge(a, b)` is
unchanged for all `a`, `b` different from `v`. -/
theorem C13_delete_vertex_postcondition (s : AdjacencyMatrix) (v : Nat) (hwf : WF s)
    (hv : v < 16) :
    v ∉ vertices (delete_vertex s v).2
    ∧ vertex_degree (delete_vertex s v).2 v = 0
    ∧ (∀ w, w < 16 → is_edge (delete_vertex s v).2 v w = false
        ∧ is_edge (delete_vertex s v).2 w v = false)
    ∧ (∀ i, i ≠ v → (i ∈ vertices (delete_vertex s v).2 ↔ i ∈ vertices s))
    ∧ (∀ a b, a < 16 → b < 16 → a ≠ v → b ≠ v →
        is_edge (delete_vertex s v).2 a b = is_edge s a b) := by
  have hwf' := delete_vertex_WF v hwf
  have hrow : (delete_vertex s v).2.edges.getD v 0 = 0 := by
    apply eq_of_testBit_low (hwf'.hrow v) (by decide)
    intro i hi
    rw [delete_vertex_testBit hwf hv hi, decide_eq_true rfl]
    simp
  refine ⟨?_, ?_, ?_, ?_, ?_⟩
  · rw [mem_vertices _ hwf'.hv]
    rintro ⟨_, hb⟩
    rw [delete_vertex_present hwf hv, decide_eq_true rfl] at hb
    simp at hb
  · unfold vertex_degree
    rw [hrow]
    rfl
  · intro w hw
    rw [is_edge_run_eq _ hwf' hw, is_edge_run_eq _ hwf' hv, delete_vertex_testBit hwf hv hw,
      delete_vertex_testBit hwf hw hv, decide_eq_true rfl]
    simp
  · intro i hiv
    rw [mem_vertices _ hwf'.hv, mem_vertices _ hwf.hv]
    constructor
    · rintro ⟨hi, hb⟩
      rw [delete_vertex_present hwf hi, decide_eq_false hiv] at hb
      exact ⟨hi, by simpa using hb⟩
    · rintro ⟨hi, hb⟩
      exact ⟨hi, by rw [delete_vertex_present hwf hi, decide_eq_false hiv, hb]; rfl⟩
  · intro a b ha hb hav hbv
    rw [is_edge_run_eq _ hwf' hb, is_edge_run_eq _ hwf hb, delete_vertex_testBit hwf ha hb,
      decide_eq_false hav, decide_eq_false hbv]
    simp

/-- Witness for C13: deleting vertex 1 of the triangle `"Bw"`. -/
theorem C13_delete_vertex_postcondition_witness :
    1 ∉ vertices (delete_vertex (AdjacencyMatrix_init (some [66, 119])).2 1).2
    ∧ vertex_degree (delete_vertex (AdjacencyMatrix_init (some [66, 119])).2 1).2 1 = 0 :=
  ⟨(C13_delete_vertex_postcondition (AdjacencyMatrix_init (some [66, 119])).2 1
      (init_WF (n := 3) (by decide) (by decide)) (by decide)).1,
    (C13_delete_vertex_postcondition (AdjacencyMatrix_init (some [66, 119])).2 1
      (init_WF (n := 3) (by decide) (by decide)) (by decide)).2.1⟩

/-- C17: `delete_edge` is idempotent. For `u`, `v` in `[0, 16)`, a second `delete_edge(u, v)`
leaves the state reached by the first unchanged, and afterwards `is_edge(u, v)` and
`is_edge(v, u)` are both false, whether or not the edge existed. -/
theorem C17_delete_edge_idempotent (s : AdjacencyMatrix) (u v : Nat) (hwf : WF s)
    (hu : u < 16) (hv : v < 16) :
    (delete_edge (delete_edge s u v).2 u v).2 = (delete_edge s u v).2
    ∧ is_edge (delete_edge s u v).2 u v = false
    ∧ is_edge (delete_edge s u v).2 v u = false := by
  have hwf1 := delete_edge_WF u v hwf
  have hwf2 := delete_edge_WF u v hwf1
  refine ⟨?_, ?_, ?_⟩
  · apply state_ext hwf2 hwf1
    · intro i _
      rw [delete_edge_vertices]
    · intro a b ha hb
      rw [delete_edge_testBit hwf1 ha hb, delete_edge_testBit hwf ha hb, Bool.and_assoc,
        Bool.and_self]
  · rw [is_edge_run_eq _ hwf1 hv, delete_edge_testBit hwf hu hv]
    simp
  · rw [is_edge_run_eq _ hwf1 hu, delete_edge_testBit hwf hv hu]
    simp

/-- Witness for C17: deleting the edge `(0, 2)` of the triangle `"Bw"` twice. -/
theorem C17_delete_edge_idempotent_witness :
    (delete_edge (delete_edge (AdjacencyMatrix_init (some [66, 119])).2 0 2).2 0 2).2
      = (delete_edge (AdjacencyMatrix_init (some [66, 119])).2 0 2).2
    ∧ is_edge (delete_edge (AdjacencyMatrix_init (some [66, 119])).2 0 2).2 0 2 = false
    ∧ is_edge (delete_edge (AdjacencyMatrix_init (some [66, 119])).2 0 2).2 2 0 = false :=
  C17_delete_edge_idempotent (AdjacencyMatrix_init (some [66, 119])).2 0 2
    (init_WF (n := 3) (by decide) (by decide)) (by decide) (by decide)

/-! ## The edge set -/

theorem nodup_PySet_Add {α : Type} [DecidableEq α] {s : List α} (x : α) (h : s.Nodup) :
    (PySet_Add s x).Nodup := by
  unfold PySet_Add
  split
  · exact h
  · rename_i hx
    exact List.Nodup.append h (List.nodup_singleton x) (by
      intro y hy hy'
      have : y = x := by simpa using hy'
      subst this
      exact hx hy)

theorem mem_foldl_add_image {α : Type} [DecidableEq α] (p : Nat → Prop) [DecidablePred p]
    (f : Nat → α) (l : List Nat) :
    ∀ (acc : List α) (x : α),
      x ∈ l.foldl (fun acc j => if p j then PySet_Add acc (f j) else acc) acc
        ↔ x ∈ acc ∨ ∃ j, j ∈ l ∧ p j ∧ x = f j := by
  induction l with
  | nil => intro acc x; simp
  | cons a l ih =>
    intro acc x
    rw [List.foldl_cons, ih]
    by_cases hp : p a
    · rw [if_pos hp, mem_PySet_Add]
      constructor
      · rintro ((h | rfl) | ⟨j, hj, hpj, rfl⟩)
        · exact Or.inl h
        · exact Or.inr ⟨a, List.mem_cons_self _ _, hp, rfl⟩
        · exact Or.inr ⟨j, List.mem_cons_of_mem _ hj, hpj, rfl⟩
      · rintro (h | ⟨j, hj, hpj, rfl⟩)
        · exact Or.inl (Or.inl h)
        · rcases List.mem_cons.mp hj with rfl | hj
          · exact Or.inl (Or.inr rfl)
          · exact Or.inr ⟨j, hj, hpj, rfl⟩
    · rw [if_neg hp]
      constructor
      · rintro (h | ⟨j, hj, hpj, rfl⟩)
        · exact Or.inl h
        · exact Or.inr ⟨j, List.mem_cons_of_mem _ hj, hpj, rfl⟩
      · rintro (h | ⟨j, hj, hpj, rfl⟩)
        · exact Or.inl h
        · rcases List.mem_cons.mp hj with rfl | hj
          · exact absurd hpj hp
          · exact Or.inr ⟨j, hj, hpj, rfl⟩

theorem nodup_foldl_add_image {α : Type} [DecidableEq α] (p : Nat → Prop) [DecidablePred p]
    (f : Nat → α) (l : List Nat) :
    ∀ acc : List α, acc.Nodup →
      (l.foldl (fun acc j => if p j then PySet_Add acc (f j) else acc) acc).Nodup := by
  induction l with
  | nil => intro acc h; exact h
  | cons a l ih =>
    intro acc h
    rw [List.foldl_cons]
    apply ih
    split
    · exact nodup_PySet_Add _ h
    · exact h

theorem mem_foldl_rows {α : Type} (g : Nat → List α → List α) (q : Nat → α → Prop)
    (hg : ∀ i acc x, x ∈ g i acc ↔ x ∈ acc ∨ q i x) (l : List Nat) :
    ∀ (acc : List α) (x : α),
      x ∈ l.foldl (fun acc i => g i acc) acc ↔ x ∈ acc ∨ ∃ i, i ∈ l ∧ q i x := by
  induction l with
  | nil => intro acc x; simp
  | cons a l ih =>
    intro acc x
    rw [List.foldl_cons, ih, hg]
    constructor
    · rintro ((h | h) | ⟨i, hi, hq⟩)
      · exact Or.inl h
      · exact Or.inr ⟨a, List.mem_cons_self _ _, h⟩
      · exact Or.inr ⟨i, List.mem_cons_of_mem _ hi, hq⟩
    · rintro (h | ⟨i, hi, hq⟩)
      · exact Or.inl (Or.inl h)
      · rcases List.mem_cons.mp hi with rfl | hi
        · exact Or.inl (Or.inr hq)
        · exact Or.inr ⟨i, hi, hq⟩

theorem nodup_foldl_rows {α : Type} (g : Nat → List α → List α)
    (hg : ∀ i acc, acc.Nodup → (g i acc).Nodup) (l : List Nat) :
    ∀ acc : List α, acc.Nodup → (l.foldl (fun acc i => g i acc) acc).Nodup := by
  induction l with
  | nil => intro acc h; exact h
  | cons a l ih =>
    intro acc h
    rw [List.foldl_cons]
    exact ih _ (hg a acc h)

/-- Membership in `edges()`, read off the two loops. -/
theorem mem_edges_loops (s : AdjacencyMatrix) (x : Nat × Nat) :
    x ∈ edges s ↔ ∃ i, i < 16 ∧ ∃ j, j < 16 ∧ andBit (s.edges.getD i 0) j ≠ 0
      ∧ x = (if i < j then i else j, if i < j then j else i) := by
  unfold edges MAX_VERTICES
  rw [mem_foldl_rows
    (fun i acc => (List.range 16).foldl
      (fun acc j =>
        if andBit (s.edges.getD i 0) j ≠ 0 then
          PySet_Add acc (if i < j then i else j, if i < j then j else i)
        else acc) acc)
    (fun i x => ∃ j, j ∈ List.range 16 ∧ andBit (s.edges.getD i 0) j ≠ 0
      ∧ x = (if i < j then i else j, if i < j then j else i))
    (fun i acc x => mem_foldl_add_image (fun j => andBit (s.edges.getD i 0) j ≠ 0)
      (fun j => (if i < j then i else j, if i < j then j else i)) (List.range 16) acc x)]
  simp only [List.not_mem_nil, false_or, List.mem_range]

theorem edges_nodup (s : AdjacencyMatrix) : (edges s).Nodup := by
  unfold edges MAX_VERTICES
  exact nodup_foldl_rows
    (fun i acc => (List.range 16).foldl
      (fun acc j =>
        if andBit (s.edges.getD i 0) j ≠ 0 then
          PySet_Add acc (if i < j then i else j, if i < j then j else i)
        else acc) acc)
    (fun i acc h => nodup_foldl_add_image (fun j => andBit (s.edges.getD i 0) j ≠ 0)
      (fun j => (if i < j then i else j, if i < j then j else i)) (List.range 16) acc h)
    (List.range 16) [] List.nodup_nil

/-- In a symmetric state without self-loops, `edges()` holds exactly the pairs `(a, b)` with
`a < b < 16` and `is_edge(a, b)`. -/
theorem mem_edges_iff (s : AdjacencyMatrix) (hwf : WF s)
    (hsym : ∀ u v, u < 16 → v < 16 → is_edge s u v = is_edge s v u)
    (hirr : ∀ u, u < 16 → is_edge s u u = false) (a b : Nat) :
    (a, b) ∈ edges s ↔ a < b ∧ b < 16 ∧ is_edge s a b = true := by
  rw [mem_edges_loops]
  constructor
  · rintro ⟨i, hi, j, hj, hbit, hx⟩
    have he : is_edge s i j = true := by
      rw [is_edge_run_eq s hwf hj]
      exact (andBit_ne_zero (hwf.hrow i) hj).mp hbit
    rcases Nat.lt_trichotomy i j with hlt | heq | hgt
    · rw [if_pos hlt, if_pos hlt, Prod.mk.injEq] at hx
      obtain ⟨rfl, rfl⟩ := hx
      exact ⟨hlt, hj, he⟩
    · subst heq
      rw [hirr i hi] at he
      cases he
    · have hn : ¬ i < j := by omega
      rw [if_neg hn, if_neg hn, Prod.mk.injEq] at hx
      obtain ⟨rfl, rfl⟩ := hx
      exact ⟨hgt, hi, by rw [hsym a b hj hi]; exact he⟩
  · rintro ⟨hab, hb, he⟩
    refine ⟨a, by omega, b, hb, ?_, by rw [if_pos hab, if_pos hab]⟩
    rw [is_edge_run_eq s hwf hb] at he
    exact (andBit_ne_zero (hwf.hrow a) hb).mpr he

/-- C12: in a symmetric state without self-loops, `edges()` is exactly the set of pairs
`(a, b)` with `0 ≤ a < b < 16` and `is_edge(a, b)`: every member has `a < b`, every edge is a
member once, and no pair `(b, a)` with `b > a` is a member. -/
theorem C12_edges_exact (s : AdjacencyMatrix) (hwf : WF s)
    (hsym : ∀ u v, u < 16 → v < 16 → is_edge s u v = is_edge s v u)
    (hirr : ∀ u, u < 16 → is_edge s u u = false) :
    (∀ a b, (a, b) ∈ edges s ↔ a < b ∧ b < 16 ∧ is_edge s a b = true)
    ∧ (∀ a b, a < b → (b, a) ∉ edges s)
    ∧ (edges s).Nodup := by
  refine ⟨mem_edges_iff s hwf hsym hirr, ?_, edges_nodup s⟩
  intro a b hab hmem
  have := ((mem_edges_iff s hwf hsym hirr b a).mp hmem).1
  omega

/-- Witness for C12 on the triangle `"Bw"`. -/
theorem C12_edges_exact_witness :
    (∀ a b, (a, b) ∈ edges (AdjacencyMatrix_init (some [66, 119])).2
      ↔ a < b ∧ b < 16 ∧ is_edge (AdjacencyMatrix_init (some [66, 119])).2 a b = true)
    ∧ edges (AdjacencyMatrix_init (some [66, 119])).2 = [(0, 1), (0, 2), (1, 2)] :=
  ⟨(C12_edges_exact (AdjacencyMatrix_init (some [66, 119])).2
      (init_WF (n := 3) (by decide) (by decide))
      (init_is_edge_symm (n := 3) (by decide) (by decide))
      (init_is_edge_irrefl (n := 3) (by decide) (by decide))).1, by decide⟩

theorem mem_lowerPairs (s : AdjacencyMatrix) (a b : Nat) :
    (a, b) ∈ lowerPairs s ↔ b < 16 ∧ a < b ∧ (s.edges.getD b 0).testBit a = true := by
  unfold lowerPairs
  simp only [List.mem_flatMap, List.mem_range, List.mem_map, List.mem_filter, Prod.mk.injEq]
  constructor
  · rintro ⟨v, hv, u, ⟨hu, hbit⟩, rfl, rfl⟩
    exact ⟨hv, hu, hbit⟩
  · rintro ⟨hb, hab, hbit⟩
    exact ⟨b, hb, a, ⟨hab, hbit⟩, rfl, rfl⟩

theorem lowerPairs_nodup (s : AdjacencyMatrix) : (lowerPairs s).Nodup := by
  unfold lowerPairs
  rw [List.nodup_flatMap]
  constructor
  · intro v _
    apply List.Nodup.map
    · intro x y hxy
      exact (Prod.mk.injEq _ _ _ _ ▸ hxy).1
    · exact List.Nodup.filter _ (List.nodup_range v)
  · apply List.Pairwise.imp _ (List.pairwise_lt_range 16)
    intro v w hvw p hp hq
    simp only [List.mem_map, List.mem_filter, List.mem_range] at hp hq
    obtain ⟨_, _, rfl⟩ := hp
    obtain ⟨_, _, hq⟩ := hq
    have := (Prod.mk.injEq _ _ _ _ ▸ hq).2
    omega

theorem lowerPairs_length (s : AdjacencyMatrix) :
    (lowerPairs s).length
      = ((List.range 16).map
          (fun i => (List.range i).countP (fun j => (s.edges.getD i 0).testBit j))).sum := by
  unfold lowerPairs
  rw [List.length_flatMap]
  congr 1
  apply List.map_congr_left
  intro v _
  simp only [Function.comp, List.length_map, List.countP_eq_length_filter]

theorem totalBits_eq_two_mul (s : AdjacencyMatrix) (hwf : WF s)
    (hsym : ∀ u v, u < 16 → v < 16 → is_edge s u v = is_edge s v u)
    (hirr : ∀ u, u < 16 → is_edge s u u = false) :
    totalBits s = 2 * (lowerPairs s).length := by
  rw [lowerPairs_length]
  exact sum_countP_symmetric (fun i j => (s.edges.getD i 0).testBit j) 16
    (fun i j hi hj => by
      show (s.edges.getD i 0).testBit j = (s.edges.getD j 0).testBit i
      rw [← is_edge_run_eq s hwf hj, ← is_edge_run_eq s hwf hi]
      exact hsym i j hi hj)
    (fun i hi => by
      show (s.edges.getD i 0).testBit i = false
      rw [← is_edge_run_eq s hwf hi]
      exact hirr i hi) 16 (Nat.le_refl 16)

theorem edges_perm_lowerPairs (s : AdjacencyMatrix) (hwf : WF s)
    (hsym : ∀ u v, u < 16 → v < 16 → is_edge s u v = is_edge s v u)
    (hirr : ∀ u, u < 16 → is_edge s u u = false) : List.Perm (edges s) (lowerPairs s) := by
  rw [List.perm_ext_iff_of_nodup (edges_nodup s) (lowerPairs_nodup s)]
  rintro ⟨a, b⟩
  rw [mem_edges_iff s hwf hsym hirr, mem_lowerPairs]
  constructor
  · rintro ⟨hab, hb, he⟩
    refine ⟨hb, hab, ?_⟩
    rw [← is_edge_run_eq s hwf (show a < 16 by omega), ← hsym a b (by omega) hb]
    exact he
  · rintro ⟨hb, hab, hbit⟩
    refine ⟨hab, hb, ?_⟩
    rw [hsym a b (by omega) hb, is_edge_run_eq s hwf (show a < 16 by omega)]
    exact hbit

/-- C11: in a symmetric state without self-loops the total number of set bits over all rows is
even, and `number_of_edges()` is the number of pairs `u < v < 16` with `is_edge(u, v)`, which is
the size of the set returned by `edges()`. -/
theorem C11_number_of_edges_exact (s : AdjacencyMatrix) (hwf : WF s)
    (hsym : ∀ u v, u < 16 → v < 16 → is_edge s u v = is_edge s v u)
    (hirr : ∀ u, u < 16 → is_edge s u u = false) :
    totalBits s % 2 = 0
    ∧ number_of_edges s
        = (Finset.filter (fun p : Nat × Nat => p.1 < p.2 ∧ is_edge s p.1 p.2 = true)
            (Finset.range 16 ×ˢ Finset.range 16)).card
    ∧ number_of_edges s = (edges s).length := by
  have htot := totalBits_eq_two_mul s hwf hsym hirr
  have hlen : (edges s).length = (lowerPairs s).length :=
    (edges_perm_lowerPairs s hwf hsym hirr).length_eq
  have hnum : number_of_edges s = (edges s).length := by
    have h := number_of_edges_eq s hwf.hrow
    unfold totalBits at htot
    rw [h, htot, hlen]
    omega
  have hset : Finset.filter (fun p : Nat × Nat => p.1 < p.2 ∧ is_edge s p.1 p.2 = true)
      (Finset.range 16 ×ˢ Finset.range 16) = (edges s).toFinset := by
    ext ⟨a, b⟩
    rw [List.mem_toFinset, mem_edges_iff s hwf hsym hirr, Finset.mem_filter, Finset.mem_product,
      Finset.mem_range, Finset.mem_range]
    constructor
    · rintro ⟨⟨_, hb⟩, hab, he⟩
      exact ⟨hab, hb, he⟩
    · rintro ⟨hab, hb, he⟩
      exact ⟨⟨by omega, hb⟩, hab, he⟩
  refine ⟨by rw [htot]; omega, ?_, hnum⟩
  rw [hset, List.toFinset_card_of_nodup (edges_nodup s), hnum]

/-- Witness for C11 on the triangle `"Bw"`: six set bits, three edges. -/
theorem C11_number_of_edges_exact_witness :
    totalBits (AdjacencyMatrix_init (some [66, 119])).2 = 6
    ∧ number_of_edges (AdjacencyMatrix_init (some [66, 119])).2 = 3
    ∧ number_of_edges (AdjacencyMatrix_init (some [66, 119])).2
        = (edges (AdjacencyMatrix_init (some [66, 119])).2).length :=
  ⟨by decide, by decide,
    (C11_number_of_edges_exact (AdjacencyMatrix_init (some [66, 119])).2
      (init_WF (n := 3) (by decide) (by decide))
      (init_is_edge_symm (n := 3) (by decide) (by decide))
      (init_is_edge_irrefl (n := 3) (by decide) (by decide))).2.2⟩

theorem countP_point {l : List Nat} (hnd : l.Nodup) (p q : Nat → Bool) {x : Nat} (hx : x ∈ l)
    (hp : p x = false) (hq : q x = true) (hother : ∀ y, y ∈ l → y ≠ x → q y = p y) :
    l.countP q = l.countP p + 1 := by
  induction l with
  | nil => cases hx
  | cons a l ih =>
    have hnd' := List.nodup_cons.mp hnd
    rw [List.countP_cons, List.countP_cons]
    by_cases hax : a = x
    · subst hax
      have hrest : l.countP q = l.countP p := by
        apply List.countP_congr
        intro y hy
        rw [hother y (List.mem_cons_of_mem _ hy) (fun h => hnd'.1 (h ▸ hy))]
      rw [hrest, hp, hq]
      simp
    · have hxl : x ∈ l := by
        rcases List.mem_cons.mp hx with h | h
        · exact absurd h.symm hax
        · exact h
      rw [ih hnd'.2 hxl (fun y hy hyx => hother y (List.mem_cons_of_mem _ hy) hyx),
        hother a (List.mem_cons_self _ _) hax]
      omega

theorem sum_map_point {l : List Nat} (hnd : l.Nodup) (f g : Nat → Nat) {x : Nat} (hx : x ∈ l)
    (hg : g x = f x + 1) (hother : ∀ y, y ∈ l → y ≠ x → g y = f y) :
    (l.map g).sum = (l.map f).sum + 1 := by
  induction l with
  | nil => cases hx
  | cons a l ih =>
    have hnd' := List.nodup_cons.mp hnd
    rw [List.map_cons, List.sum_cons, List.map_cons, List.sum_cons]
    by_cases hax : a = x
    · subst hax
      have hrest : l.map g = l.map f := by
        apply List.map_congr_left
        intro y hy
        exact hother y (List.mem_cons_of_mem _ hy) (fun h => hnd'.1 (h ▸ hy))
      rw [hrest, hg]
      omega
    · have hxl : x ∈ l := by
        rcases List.mem_cons.mp hx with h | h
        · exact absurd h.symm hax
        · exact h
      rw [ih hnd'.2 hxl (fun y hy hyx => hother y (List.mem_cons_of_mem _ hy) hyx),
        hother a (List.mem_cons_self _ _) hax]
      omega

theorem number_of_edges_eq_half (s : AdjacencyMatrix) (hwf : WF s) :
    number_of_edges s = totalBits s / 2 :=
  number_of_edges_eq s hwf.hrow

/-- Adding an absent edge between distinct vertices of a symmetric state sets two bits. -/
theorem totalBits_add_edge {s : AdjacencyMatrix} {u v : Nat} (hwf : WF s)
    (hsym : ∀ a b, a < 16 → b < 16 → is_edge s a b = is_edge s b a)
    (hu : u < 16) (hv : v < 16) (huv : u ≠ v) (habs : is_edge s u v = false) :
    totalBits (add_edge s u v).2 = totalBits s + 2 := by
  have huv_bit : (s.edges.getD u 0).testBit v = false := by
    rw [← is_edge_run_eq s hwf hv]
    exact habs
  have hvu_bit : (s.edges.getD v 0).testBit u = false := by
    rw [← is_edge_run_eq s hwf hu, ← hsym u v hu hv]
    exact habs
  have hrow_u : bitCount ((add_edge s u v).2.edges.getD u 0) = bitCount (s.edges.getD u 0) + 1 := by
    unfold bitCount
    apply countP_point (List.nodup_range 16) _ _ (List.mem_range.mpr hv) huv_bit
    · rw [add_edge_testBit hwf hu hv hu hv]
      simp [huv]
    · intro y hy hyv
      rw [add_edge_testBit hwf hu hv hu (List.mem_range.mp hy)]
      simp [hyv, huv]
  have hrow_v : bitCount ((add_edge s u v).2.edges.getD v 0) = bitCount (s.edges.getD v 0) + 1 := by
    unfold bitCount
    apply countP_point (List.nodup_range 16) _ _ (List.mem_range.mpr hu) hvu_bit
    · rw [add_edge_testBit hwf hu hv hv hu]
      simp [huv]
    · intro y hy hyu
      rw [add_edge_testBit hwf hu hv hv (List.mem_range.mp hy)]
      simp [hyu, huv, Ne.symm huv]
  have hrow_other : ∀ i, i < 16 → i ≠ u → i ≠ v →
      bitCount ((add_edge s u v).2.edges.getD i 0) = bitCount (s.edges.getD i 0) := by
    intro i hi hiu hiv
    unfold bitCount
    apply List.countP_congr
    intro y hy
    rw [add_edge_testBit hwf hu hv hi (List.mem_range.mp hy)]
    simp [hiu, hiv]
  unfold totalBits
  have step1 := sum_map_point (List.nodup_range 16)
    (fun i => bitCount (s.edges.getD i 0))
    (fun i => if i = u then bitCount (s.edges.getD u 0) + 1 else bitCount (s.edges.getD i 0))
    (List.mem_range.mpr hu) (by simp) (fun y _ hyu => by simp [hyu])
  have step2 := sum_map_point (List.nodup_range 16)
    (fun i => if i = u then bitCount (s.edges.getD u 0) + 1 else bitCount (s.edges.getD i 0))
    (fun i => bitCount ((add_edge s u v).2.edges.getD i 0))
    (List.mem_range.mpr hv)
    (by
      show bitCount ((add_edge s u v).2.edges.getD v 0)
        = (if v = u then bitCount (s.edges.getD u 0) + 1 else bitCount (s.edges.getD v 0)) + 1
      rw [if_neg (Ne.symm huv), hrow_v])
    (fun y hy hyv => by
      show bitCount ((add_edge s u v).2.edges.getD y 0)
        = if y = u then bitCount (s.edges.getD u 0) + 1 else bitCount (s.edges.getD y 0)
      by_cases hyu : y = u
      · subst hyu
        rw [if_pos rfl, hrow_u]
      · rw [if_neg hyu, hrow_other y (List.mem_range.mp hy) hyu hyv])
  rw [step2, step1]

/-- C19: `add_edge` postcondition. In a symmetric state, for distinct `u`, `v` in `[0, 16)`,
after `add_edge(u, v)`: `is_edge(a, b)` is true iff it was true before or `{a, b} = {u, v}`;
`present_vertices` is unchanged; `number_of_edges()` grows by exactly 1 if the edge was absent
and is unchanged if it was present. -/
theorem C19_add_edge_postcondition (s : AdjacencyMatrix) (u v : Nat) (hwf : WF s)
    (hsym : ∀ a b, a < 16 → b < 16 → is_edge s a b = is_edge s b a)
    (hu : u < 16) (hv : v < 16) (huv : u ≠ v) :
    (∀ a b, a < 16 → b < 16 →
      (is_edge (add_edge s u v).2 a b = true
        ↔ is_edge s a b = true ∨ (a = u ∧ b = v) ∨ (a = v ∧ b = u)))
    ∧ (add_edge s u v).2.vertices = s.vertices
    ∧ (is_edge s u v = false → number_of_edges (add_edge s u v).2 = number_of_edges s + 1)
    ∧ (is_edge s u v = true → number_of_edges (add_edge s u v).2 = number_of_edges s) := by
  have hwf' := add_edge_WF u v hwf
  refine ⟨?_, add_edge_vertices s u v, ?_, ?_⟩
  · intro a b ha hb
    rw [is_edge_run_eq _ hwf' hb, is_edge_run_eq s hwf hb, add_edge_testBit hwf hu hv ha hb]
    simp [huv]
  · intro habs
    rw [number_of_edges_eq_half _ hwf', number_of_edges_eq_half s hwf,
      totalBits_add_edge hwf hsym hu hv huv habs]
    omega
  · intro hpres
    have huv_bit : (s.edges.getD u 0).testBit v = true := by
      rw [← is_edge_run_eq s hwf hv]
      exact hpres
    have hvu_bit : (s.edges.getD v 0).testBit u = true := by
      rw [← is_edge_run_eq s hwf hu, ← hsym u v hu hv]
      exact hpres
    have hsame : (add_edge s u v).2 = s := by
      apply state_ext hwf' hwf
      · intro i _
        rw [add_edge_vertices]
      · intro a b ha hb
        rw [add_edge_testBit hwf hu hv ha hb]
        by_cases h1 : a = u ∧ b = v
        · obtain ⟨rfl, rfl⟩ := h1
          rw [huv_bit, Bool.true_or]
        · by_cases h2 : a = v ∧ b = u
          · obtain ⟨rfl, rfl⟩ := h2
            rw [hvu_bit, Bool.true_or]
          · simp [h1, h2]
    rw [hsame]

/-- Witness for C19: adding the edge `(0, 3)` to the triangle `"Bw"`. -/
theorem C19_add_edge_postcondition_witness :
    is_edge (AdjacencyMatrix_init (some [66, 119])).2 0 3 = false
    ∧ number_of_edges (add_edge (AdjacencyMatrix_init (some [66, 119])).2 0 3).2
        = number_of_edges (AdjacencyMatrix_init (some [66, 119])).2 + 1 :=
  ⟨by decide,
    (C19_add_edge_postcondition (AdjacencyMatrix_init (some [66, 119])).2 0 3
      (init_WF (n := 3) (by decide) (by decide))
      (init_is_edge_symm (n := 3) (by decide) (by decide))
      (by decide) (by decide) (by decide)).2.2.1 (by decide)⟩

/-! ## Unvalidated inputs -/

theorem header_of_head {n : Nat} {txt : List Int} (h : txt.head? = some (63 + (n : Int))) :
    txtAt txt 0 - 63 = (n : Int) := by
  cases txt with
  | nil => simp at h
  | cons hd tl =>
    simp only [List.head?_cons, Option.some.injEq] at h
    simp only [txtAt, List.getD_cons_zero, h]
    omega

theorem init_edges_of_header {n : Nat} {txt : List Int} (hnul : 0 ∉ txt)
    (hh : txtAt txt 0 - 63 = (n : Int)) (hn : n ≤ 16) :
    EdgeInv txt (tri n) (AdjacencyMatrix_init (some txt)).2.edges := by
  have h := (init_final_inv txt hn).hedges
  rw [init_eq_of_no_nul hnul]
  simp only [hh]
  exact h

theorem init_vertices_of_header {n : Nat} {txt : List Int} (hnul : 0 ∉ txt)
    (hh : txtAt txt 0 - 63 = (n : Int)) :
    (AdjacencyMatrix_init (some txt)).2.vertices = toShort (2 ^ n - 1) := by
  rw [init_eq_of_no_nul hnul]
  simp only [hh, Int.toNat_ofNat, Nat.one_shiftLeft]

theorem asciiText_no_nul {txt : List Int} (h : AsciiText txt) : 0 ∉ txt := by
  intro hmem
  have := (h 0 hmem).1
  omega

/-- C14, as stated, fails: `"B"` (no data character; the loop reads the terminator), `"B "`
(a space as data character) and `'P'` with 23 `'?'` (17 declared vertices) are all malformed,
and for each of them construction returns 0 with an initialised graph. -/
theorem C14_malformed_accepted_counterexample :
    ¬ WellFormed 3 text_B
    ∧ AdjacencyMatrix_init (some text_B)
        = (0, { vertices := 7, edges := List.replicate 16 0 })
    ∧ ¬ WellFormed 3 text_B_space
    ∧ AdjacencyMatrix_init (some text_B_space)
        = (0, { vertices := 7, edges := 2 :: 1 :: List.replicate 14 0 })
    ∧ edges (AdjacencyMatrix_init (some text_B_space)).2 = [(0, 1)]
    ∧ 16 < txtAt text_17 0 - 63
    ∧ AdjacencyMatrix_init (some text_17)
        = (0, { vertices := 65535, edges := List.replicate 16 0 }) := by
  decide

/-- C14 amended: construction rejects a text only through the argument parse. A text with an
embedded NUL makes construction fail (return code -1). For `n ≤ 16` and every text of non-NUL
ASCII characters whose first character is `chr(63 + n)` and whose reads stay within the text and
its terminator, whatever the data characters are, the return code is 0, `vertices()` is
`{0, ..., n-1}`, and for `u < v < n`, `is_edge(u, v)` holds iff bit `5 - p mod 6` of the
two's-complement value of `txt[1 + p div 6] - 63` is set, `p = v(v-1)/2 + u`. -/
theorem C14_only_the_argument_parse_rejects (n : Nat) (txt : List Int) :
    (0 ∈ txt → (AdjacencyMatrix_init (some txt)).1 = -1)
    ∧ (n ≤ 16 → AsciiText txt → txt.head? = some (63 + (n : Int)) →
        (n * (n - 1) / 2 + 5) / 6 ≤ txt.length →
        (AdjacencyMatrix_init (some txt)).1 = 0
        ∧ (∀ i, i ∈ vertices (AdjacencyMatrix_init (some txt)).2 ↔ i < n)
        ∧ (∀ u v, u < v → v < n →
            (is_edge (AdjacencyMatrix_init (some txt)).2 u v = true
              ↔ (toInt32 (txtAt txt (1 + (v * (v - 1) / 2 + u) / 6) - 63)).testBit
                  (5 - (v * (v - 1) / 2 + u) % 6) = true))) := by
  constructor
  · intro h0
    rw [init_of_nul h0]
  · intro hn hascii hhead hreads
    have _ := hreads
    have hnul := asciiText_no_nul hascii
    have hh := header_of_head hhead
    have he := init_edges_of_header hnul hh hn
    have hvs := init_vertices_of_header hnul hh
    refine ⟨by rw [init_eq_of_no_nul hnul], ?_, ?_⟩
    · intro i
      rw [mem_vertices _ (by rw [hvs]; exact toShort_lt _), hvs]
      constructor
      · rintro ⟨h1, h2⟩
        rw [lowBits_testBit h1] at h2
        exact of_decide_eq_true h2
      · intro h
        have h1 : i < 16 := by omega
        exact ⟨h1, by rw [lowBits_testBit h1]; exact decide_eq_true h⟩
    · intro u v huv hv
      have hlt : tri v + u < tri n := by
        have h1 := tri_mono (Nat.succ_le_of_lt hv)
        rw [tri_succ] at h1
        omega
      rw [is_edge_eq_testBit _ (he.hlt u) (by omega), he.hbit u v huv (by omega)]
      exact ⟨fun h => h.2, fun h => ⟨hlt, h⟩⟩

/-- Witness for the amended C14: the text `B`, NUL, `w` is rejected, `"B "` is accepted. -/
theorem C14_only_the_argument_parse_rejects_witness :
    (0 ∈ text_B_nul_w ∧ (AdjacencyMatrix_init (some text_B_nul_w)).1 = -1)
    ∧ AsciiText text_B_space
    ∧ text_B_space.head? = some (63 + ((3 : Nat) : Int))
    ∧ (3 * (3 - 1) / 2 + 5) / 6 ≤ text_B_space.length
    ∧ (AdjacencyMatrix_init (some text_B_space)).1 = 0
    ∧ (∀ i, i ∈ vertices (AdjacencyMatrix_init (some text_B_space)).2 ↔ i < 3) :=
  ⟨⟨by decide, (C14_only_the_argument_parse_rejects 3 text_B_nul_w).1 (by decide)⟩,
    by decide, by decide, by decide,
    ((C14_only_the_argument_parse_rejects 3 text_B_space).2
      (by decide) (by decide) (by decide) (by decide)).1,
    ((C14_only_the_argument_parse_rejects 3 text_B_space).2
      (by decide) (by decide) (by decide) (by decide)).2.1⟩

theorem orAssign_high_bit {x v : Nat} (hx : x < 65536) (hv : 16 ≤ v) :
    orAssign x (1 <<< v) = x := by
  apply eq_of_testBit_low (orAssign_lt _ _) hx
  intro i hi
  rw [orAssign_testBit _ hx hi, shift_testBit, decide_eq_false (by omega), Bool.or_false]

/-- C15, as stated, fails: 16 is outside `[0, MAX_VERTICES)`, yet on the triangle `"Bw"`
`add_edge(16, 16)` returns `True` (the guard `v != u` skips both assignments), and
`add_vertex(16)` returns `False`, the value `add_vertex(0)` returns too; neither reports a
failure, and both leave the state unchanged. -/
theorem C15_out_of_range_counterexample :
    ¬ (16 < MAX_VERTICES)
    ∧ add_edge (AdjacencyMatrix_init (some [66, 119])).2 16 16
        = (true, (AdjacencyMatrix_init (some [66, 119])).2)
    ∧ add_vertex (AdjacencyMatrix_init (some [66, 119])).2 16
        = (false, (AdjacencyMatrix_init (some [66, 119])).2)
    ∧ (add_vertex (AdjacencyMatrix_init (some [66, 119])).2 16).1
        = (add_vertex (AdjacencyMatrix_init (some [66, 119])).2 0).1 := by
  decide

/-- C15 amended: indices are not checked and no failure is reported. For `v` in `[16, 30]`,
`add_vertex(v)` returns `False`, the value it returns for every in-range index as well, and
`add_edge(v, v)` returns `True`; both leave `present_vertices` and every adjacency row
unchanged. -/
theorem C15_unchecked_index_is_noop (s : AdjacencyMatrix) (v : Nat) (hwf : WF s)
    (hlo : 16 ≤ v) (hhi : v ≤ 30) :
    add_vertex s v = (false, s)
    ∧ (∀ w, w < 16 → (add_vertex s w).1 = false)
    ∧ add_edge s v v = (true, s) := by
  have _ := hhi
  refine ⟨?_, fun _ _ => rfl, ?_⟩
  · unfold add_vertex
    rw [orAssign_high_bit hwf.hv hlo]
  · unfold add_edge
    rw [if_neg (fun hc => hc rfl)]

/-- Witness for the amended C15: index 16 on the triangle `"Bw"`. -/
theorem C15_unchecked_index_is_noop_witness :
    add_vertex (AdjacencyMatrix_init (some [66, 119])).2 16
      = (false, (AdjacencyMatrix_init (some [66, 119])).2)
    ∧ add_edge (AdjacencyMatrix_init (some [66, 119])).2 16 16
      = (true, (AdjacencyMatrix_init (some [66, 119])).2) :=
  ⟨(C15_unchecked_index_is_noop (AdjacencyMatrix_init (some [66, 119])).2 16
      (init_WF (n := 3) (by decide) (by decide)) (by decide) (by decide)).1,
    (C15_unchecked_index_is_noop (AdjacencyMatrix_init (some [66, 119])).2 16
      (init_WF (n := 3) (by decide) (by decide)) (by decide) (by decide)).2.2⟩

end SimpleGraphs
